import Mathlib

/-! Call graph of the P4 front end (`frontends/p4/callGraph.h`).

A shallow embedding of the class template `P4::CallGraph<T>`:

* the graph store (`add`, `isCaller`, `isCallee`),
* the recursive reachability sort (`sort`),
* the dominator computation (`dominators`) and the loop discovery built on it
  (`compute_loops`),
* Tarjan's strongly connected components (`strongConnect`, `sccSort`).

Conventions of the embedding.

* `ordered_map<T, std::vector<T>*>` is an association list in key insertion order.
* `std::set<T> nodes` is the ascending list of its elements (its iteration order).
* Scratch sets that are only tested for membership (`done`, `onStack`, the sets of
  dominators, loop bodies) are `Finset T`.
* `std::map<T, V>` is a finite partial function `T → Option V`.
* `std::vector` used as a stack (`sccInfo::stack`, the work list of `compute_loops`)
  is a list whose head is `back()`.
* Recursion and `while` loops that the C++ does not bound take a `fuel : Nat`, the
  bound on the recursion depth (number of iterations for a loop); the result
  `none` means that the bound was reached, or that the C++ dereferenced a null
  pointer (`*out_edges[x]` for an unknown `x`) or popped an empty vector.
* `unsigned` counters are natural numbers: `crtIndex` counts visited nodes.
-/

namespace P4

variable {T : Type}

/-! ## Containers -/

/-- Runs the body `f` of a range-based `for` over the elements of `l`, threading the
state and stopping at the first failure. -/
def forEachM {σ : Type} (f : T → σ → Option σ) : List T → σ → Option σ
  | [], s => some s
  | c :: cs, s =>
    match f c s with
    | none => none
    | some s1 => forEachM f cs s1

/-- Modelled from the spec: the container `ordered_map` of `lib/ordered_map.h`, a
mapping whose iteration returns the keys in insertion order. This is its lookup
`m.find(key)`: the vector stored under `key`. -/
def omFind [DecidableEq T] : List (T × List T) → T → Option (List T)
  | [], _ => none
  | (k, v) :: rest, key => if k = key then some v else omFind rest key

/-- Modelled from the spec: the assignment `m[key] = v` of an `ordered_map`
(`lib/ordered_map.h`); a new key goes to the end of the insertion order, an old key
keeps its place. -/
def omAssign [DecidableEq T] : List (T × List T) → T → List T → List (T × List T)
  | [], key, v => [(key, v)]
  | (k, w) :: rest, key, v =>
    if k = key then (k, v) :: rest else (k, w) :: omAssign rest key v

/-- Modelled from the spec: the update `m[key]->push_back(x)` of an `ordered_map`
(`lib/ordered_map.h`) for a key that is present; the edge sequence keeps its insertion
order. -/
def omPushBack [DecidableEq T] : List (T × List T) → T → T → List (T × List T)
  | [], _, _ => []
  | (k, w) :: rest, key, x =>
    if k = key then (k, w ++ [x]) :: rest else (k, w) :: omPushBack rest key x

/-- The keys of an `ordered_map` in iteration order. -/
def omKeys (m : List (T × List T)) : List T := m.map Prod.fst

/-! ## Graph store -/

/-- The data members of `CallGraph<T>` (the name is only used for logging). -/
structure CallGraph (T : Type) where
  out_edges : List (T × List T)
  in_edges : List (T × List T)
  nodes : List T

namespace CallGraph

variable [LinearOrder T]

/-- The graph right after the constructor. -/
def empty : CallGraph T := ⟨[], [], []⟩

/-- The method `add(T caller)`: node that may call no-one. -/
def add (g : CallGraph T) (caller : T) : CallGraph T :=
  if caller ∈ g.nodes then g
  else
    { out_edges := omAssign g.out_edges caller []
      in_edges := omAssign g.in_edges caller []
      nodes := g.nodes.orderedInsert (· ≤ ·) caller }

/-- The method `add(T caller, T callee)`. -/
def addEdge (g : CallGraph T) (caller callee : T) : CallGraph T :=
  let g2 := (g.add caller).add callee
  { out_edges := omPushBack g2.out_edges caller callee
    in_edges := omPushBack g2.in_edges callee caller
    nodes := g2.nodes }

/-- The method `isCallee`. -/
def isCallee (g : CallGraph T) (callee : T) : Bool :=
  match omFind g.in_edges callee with
  | none => false
  | some callees => !callees.isEmpty

/-- The method `isCaller`. -/
def isCaller (g : CallGraph T) (caller : T) : Bool :=
  (omFind g.out_edges caller).isSome

end CallGraph

/-- One call of a client on the graph store. -/
inductive Op (T : Type) where
  | node (n : T) : Op T
  | edge (caller callee : T) : Op T

/-- Applies one client call. -/
def Op.apply [LinearOrder T] (g : CallGraph T) : Op T → CallGraph T
  | Op.node n => g.add n
  | Op.edge a b => g.addEdge a b

/-- The graph built from the empty graph by a sequence of `add` calls. -/
def build [LinearOrder T] (ops : List (Op T)) : CallGraph T :=
  ops.foldl Op.apply CallGraph.empty

namespace CallGraph

variable [LinearOrder T]

/-! ## Reachability sort -/

/-- The protected recursive method `sort(T el, out, done)`, with a bound `fuel` on the
recursion depth. The state is the pair `(out, done)`. -/
def sortEl (g : CallGraph T) : Nat → T → List T × Finset T → Option (List T × Finset T)
  | 0, _, _ => none
  | fuel + 1, el, st =>
    if el ∈ st.2 then some st
    else
      let r : Option (List T × Finset T) :=
        if g.isCaller el then
          match omFind g.out_edges el with
          | none => none
          | some callees => forEachM (sortEl g fuel) callees st
        else some st
      match r with
      | none => none
      | some st1 => some (st1.1 ++ [el], insert el st1.2)

/-- The method `sort(std::vector<T> &start, std::vector<T> &out)`. -/
def sort (g : CallGraph T) (fuel : Nat) (start : List T) (out : List T) : Option (List T) :=
  (forEachM (sortEl g fuel) start (out, ∅)).map Prod.fst

/-- The method `sort(std::vector<T> &out)`, which iterates over the set `nodes`. -/
def sortAll (g : CallGraph T) (fuel : Nat) (out : List T) : Option (List T) :=
  (forEachM (sortEl g fuel) g.nodes (out, ∅)).map Prod.fst

/-! ## Dominators -/

/-- The value `dominators[n]` read through `operator[]`: absent keys read as empty. -/
def domGet (dom : T → Option (Finset T)) (n : T) : Finset T := (dom n).getD ∅

/-- The update `dominators[n] = s`. -/
def domSet (dom : T → Option (Finset T)) (n : T) (s : Finset T) : T → Option (Finset T) :=
  fun x => if x = n then some s else dom x

/-- The initialisation loop of `dominators`. -/
def domInit (g : CallGraph T) (start : T) (dominators : T → Option (Finset T)) :
    T → Option (Finset T) :=
  g.nodes.foldl
    (fun dom n =>
      if n = start then domSet dom n (insert start (domGet dom n))
      else domSet dom n (domGet dom n ∪ g.nodes.toFinset))
    dominators

/-- The helper `insersect(set, with)`: intersect in place. -/
def insersect (set with_ : Finset T) : Finset T := set.filter (fun e => e ∈ with_)

/-- One pass of the body of `while (changes)` over all nodes; returns the new map and
the new value of `changes`. -/
def domPass (g : CallGraph T) (dom : T → Option (Finset T)) (changes : Bool) :
    (T → Option (Finset T)) × Bool :=
  g.nodes.foldl
    (fun (acc : (T → Option (Finset T)) × Bool) node =>
      match omFind g.in_edges node with
      | none => acc
      | some vec =>
        let size := (domGet acc.1 node).card
        let d1 := vec.foldl (fun d c => domSet d node (insersect (domGet d node) (domGet d c))) acc.1
        let d2 := domSet d1 node (insert node (domGet d1 node))
        if (domGet d2 node).card ≠ size then (d2, true) else (d2, acc.2))
    (dom, changes)

/-- The loop `while (changes) { ... }` of `dominators`. -/
def domLoop (g : CallGraph T) : Nat → Bool → (T → Option (Finset T)) →
    Option (T → Option (Finset T))
  | _, false, dom => some dom
  | 0, true, _ => none
  | fuel + 1, true, dom =>
    let r := domPass g dom true
    domLoop g fuel r.2 r.1

/-- The method `dominators(T start, std::map<T, std::unordered_set<T>> &dominators)`. -/
def dominators (g : CallGraph T) (fuel : Nat) (start : T)
    (dominators : T → Option (Finset T)) : Option (T → Option (Finset T)) :=
  domLoop g fuel false (domInit g start dominators)

/-! ## Loops -/

/-- The nested class `Loop`. -/
structure Loop (T : Type) where
  entry : T
  body : Finset T
  back_edge_heads : Finset T

/-- The object made by `new Loop()`: value-initialised members. -/
def Loop.new [Inhabited T] : Loop T := ⟨default, ∅, ∅⟩

/-- The state of `compute_loops`: the map `entryToLoop` and the vector `loops`. A
`Loop*` is the position of the record in `loops`. -/
structure LoopState (T : Type) where
  entryToLoop : T → Option Nat
  loops : List (Loop T)

/-- The inner `while (!work.empty())` of `compute_loops`, collecting the body of the
loop with head `n`; `fuel` bounds the number of iterations. -/
def collectBody (g : CallGraph T) (n : T) : Nat → List T → Finset T → Option (Finset T)
  | _, [], body => some body
  | 0, _ :: _, _ => none
  | fuel + 1, crt :: work, body =>
    if crt = n then collectBody g n fuel work (insert crt body)
    else
      match omFind g.in_edges crt with
      | none => none
      | some preds => collectBody g n fuel (preds.reverse ++ work) (insert crt body)

/-- The lookup `get(entryToLoop, n)` followed by the creation of the record when it is
absent: the new state and the position of the record of `n`. -/
def findLoop [Inhabited T] (st : LoopState T) (n : T) : LoopState T × Nat :=
  match st.entryToLoop n with
  | some p => (st, p)
  | none =>
    (⟨fun x => if x = n then some st.loops.length else st.entryToLoop x,
      st.loops ++ [Loop.new]⟩, st.loops.length)

/-- The body of `for (auto n : *next)` in `compute_loops`, for the edge `e → n`. -/
def loopEdge [Inhabited T] (g : CallGraph T) (fuel : Nat) (dome : Finset T) (e n : T)
    (st : LoopState T) : Option (LoopState T) :=
  if n ∈ dome then
    let st1 := findLoop st n
    match st1.1.loops[st1.2]? with
    | none => none
    | some loop =>
      match collectBody g n fuel [e] loop.body with
      | none => none
      | some body =>
        some ⟨st1.1.entryToLoop,
          st1.1.loops.set st1.2 ⟨loop.entry, body, insert e loop.back_edge_heads⟩⟩
  else some st

/-- The body of `for (auto e : nodes)` in `compute_loops`. -/
def loopNode [Inhabited T] (g : CallGraph T) (fuel : Nat) (dom : T → Option (Finset T))
    (e : T) (st : LoopState T) : Option (LoopState T) :=
  match omFind g.out_edges e with
  | none => none
  | some next => forEachM (loopEdge g fuel (domGet dom e) e) next st

/-- The method `compute_loops(T start, std::vector<Loop*> &loops)`; `fuel` bounds the
iterations of each `while` loop. -/
def compute_loops [Inhabited T] (g : CallGraph T) (fuel : Nat) (start : T)
    (loops : List (Loop T)) : Option (List (Loop T)) :=
  match dominators g fuel start (fun _ => none) with
  | none => none
  | some dom =>
    (forEachM (loopNode g fuel dom) g.nodes ⟨fun _ => none, loops⟩).map LoopState.loops

/-! ## Strongly connected components -/

/-- The helper struct `sccInfo`. -/
structure sccInfo (T : Type) where
  crtIndex : Nat
  stack : List T
  onStack : Finset T
  index : T → Option Nat
  lowlink : T → Option Nat

namespace sccInfo

/-- The constructor `sccInfo() : crtIndex(0) {}`. -/
def new : sccInfo T := ⟨0, [], ∅, fun _ => none, fun _ => none⟩

/-- Modelled from the spec: the helper `get(map, key)` of `lib/map.h`, through which
`index[v]` and `lowlink[v]` are read: the mapped value, and the value-initialised
`unsigned` for an absent key. -/
def get (m : T → Option Nat) (key : T) : Nat := (m key).getD 0

/-- The method `push`. -/
def push (h : sccInfo T) (node : T) : sccInfo T :=
  { h with stack := node :: h.stack, onStack := insert node h.onStack }

/-- The method `isOnStack`. -/
def isOnStack (h : sccInfo T) (node : T) : Bool := decide (node ∈ h.onStack)

/-- The method `unknown`. -/
def unknown (h : sccInfo T) (node : T) : Bool := (h.index node).isNone

/-- The method `setLowLink(T node, unsigned value)`. -/
def setLowLinkValue (h : sccInfo T) (node : T) (value : Nat) : sccInfo T :=
  { h with lowlink := fun x => if x = node then some value else h.lowlink x }

/-- The method `setLowLink(T node, T successor)`. -/
def setLowLink (h : sccInfo T) (node successor : T) : sccInfo T :=
  let nlink := get h.lowlink node
  let slink := get h.lowlink successor
  if slink < nlink then h.setLowLinkValue node slink else h

/-- The statement `helper.index.emplace(node, helper.crtIndex)`: no effect on a key
that is present. -/
def emplaceIndex (h : sccInfo T) (node : T) : sccInfo T :=
  match h.index node with
  | some _ => h
  | none => { h with index := fun x => if x = node then some h.crtIndex else h.index x }

end sccInfo

/-- The loop `while (true) { sccMember = helper.pop(); out.push_back(sccMember); ... }`
at the end of `strongConnect`, on the state `(loop, helper, out)`. -/
def popScc (node : T) : List T → Bool × sccInfo T × List T → Option (Bool × sccInfo T × List T)
  | [], _ => none
  | sccMember :: rest, (loop, h, out) =>
    let h1 : sccInfo T := { h with stack := rest, onStack := h.onStack.erase sccMember }
    if sccMember = node then some (loop, h1, out ++ [sccMember])
    else popScc node rest (true, h1, out ++ [sccMember])

/-- The body of `for (auto next : *out_edges[node])` in `strongConnect`, given the
recursive call `rec` on a successor. -/
def sccEdge (rec : T → sccInfo T × List T → Option (Bool × sccInfo T × List T)) (node next : T)
    (st : Bool × sccInfo T × List T) : Option (Bool × sccInfo T × List T) :=
  if st.2.1.unknown next then
    match rec next (st.2.1, st.2.2) with
    | none => none
    | some (l, h, out) => some (st.1 || l, h.setLowLink node next, out)
  else if st.2.1.isOnStack next then some (st.1, st.2.1.setLowLink node next, st.2.2)
  else some st

/-- The statements of `strongConnect` before its loop: `index.emplace(node, crtIndex)`,
`setLowLink(node, crtIndex)`, `crtIndex++`, `push(node)`. -/
def enter (helper : sccInfo T) (node : T) : sccInfo T :=
  let h0 := helper.emplaceIndex node
  let h1 := h0.setLowLinkValue node h0.crtIndex
  ({ h1 with crtIndex := h1.crtIndex + 1 } : sccInfo T).push node

/-- The method `strongConnect(T node, sccInfo& helper, std::vector<T>& out)`, with a
bound `fuel` on the recursion depth; the state of the loop is `(loop, helper, out)`. -/
def strongConnect (g : CallGraph T) : Nat → T → sccInfo T × List T →
    Option (Bool × sccInfo T × List T)
  | 0, _, _ => none
  | fuel + 1, node, st =>
    match omFind g.out_edges node with
    | none => none
    | some nexts =>
      match forEachM (sccEdge (strongConnect g fuel) node) nexts
          (false, enter st.1 node, st.2) with
      | none => none
      | some st4 =>
        if sccInfo.get st4.2.1.lowlink node = sccInfo.get st4.2.1.index node then
          popScc node st4.2.1.stack st4
        else some st4

/-- The method `sccSort(T start, std::vector<T> &out)`: the returned flag and the
final contents of `out`. -/
def sccSort (g : CallGraph T) (fuel : Nat) (start : T) (out : List T) : Option (Bool × List T) :=
  (strongConnect g fuel start (sccInfo.new, out)).map (fun r => (r.1, r.2.2))

/-! ## Notions of the specification -/

/-- The callees of `a`: the vector `*out_edges[a]`, empty for an unknown node. -/
def callees (g : CallGraph T) (a : T) : List T :=
  match omFind g.out_edges a with
  | none => []
  | some cs => cs

/-- The graph has an edge from `a` to `b`. -/
def edge (g : CallGraph T) (a b : T) : Prop := b ∈ g.callees a

instance (g : CallGraph T) (a b : T) : Decidable (g.edge a b) :=
  inferInstanceAs (Decidable (b ∈ g.callees a))

/-- Node `b` is reachable from `a`: there is a directed path from `a` to `b`. -/
def Reach (g : CallGraph T) (a b : T) : Prop := Relation.ReflTransGen g.edge a b

/-- Node `a` lies on a cycle (a self-loop counts). -/
def OnCycle (g : CallGraph T) (a : T) : Prop := Relation.TransGen g.edge a a

/-- The graph has no cycle at all. -/
def Acyclic (g : CallGraph T) : Prop := ∀ a, ¬ g.OnCycle a

/-- The subgraph reachable from the nodes of `start` has no cycle. -/
def AcyclicFrom (g : CallGraph T) (start : List T) : Prop :=
  ∀ s ∈ start, ∀ x, g.Reach s x → ¬ g.OnCycle x

/-- The list `p` is a directed path from `s` to `n`. -/
def IsPath (g : CallGraph T) (s n : T) (p : List T) : Prop :=
  p.Chain' g.edge ∧ p.head? = some s ∧ p.getLast? = some n

/-- Node `d` dominates `n` with respect to the start `s`: every path from `s` to `n`
passes through `d`. -/
def Dominates (g : CallGraph T) (s d n : T) : Prop :=
  ∀ p, g.IsPath s n p → d ∈ p

/-- Nodes `a` and `b` are in the same strongly connected component. -/
def SameScc (g : CallGraph T) (a b : T) : Prop := g.Reach a b ∧ g.Reach b a

/-- Element `b` occurs in `out` at an earlier position than `a`. -/
def Before (out : List T) (b a : T) : Prop :=
  b ∈ out ∧ a ∈ out ∧ out.indexOf b < out.indexOf a

/-- No node reachable from `a` lies on a cycle. -/
def Good (g : CallGraph T) (a : T) : Prop := ∀ x, g.Reach a x → ¬ g.OnCycle x

/-- All nodes that occur in `out_edges`, as keys or as callees. -/
def mentioned (g : CallGraph T) : List T := g.out_edges.flatMap (fun kv => kv.1 :: kv.2)

/-- The invariant of the state `(out, done)` of the sort: `done` is the set of
elements of `out`, `out` has no duplicate, and every callee of an element of `out`
occurs earlier in `out`. -/
def SortInv (g : CallGraph T) (st : List T × Finset T) : Prop :=
  (∀ x, x ∈ st.2 ↔ x ∈ st.1) ∧ st.1.Nodup ∧ ∀ a ∈ st.1, ∀ b, g.edge a b → Before st.1 b a

/-- What a terminated call `sort(el, out, done)` guarantees. -/
def SortPost (g : CallGraph T) (roots : List T) (st st1 : List T × Finset T) : Prop :=
  SortInv g st1 ∧ (∃ new, st1.1 = st.1 ++ new ∧ ∀ x ∈ new, ∃ c ∈ roots, g.Reach c x) ∧
    ∀ c ∈ roots, c ∈ st1.1

/-- The call on `el` returns with every large enough recursion bound. -/
def SortOk (g : CallGraph T) (el : T) : Prop :=
  ∃ fuel, ∀ st, SortInv g st → ∃ st1, g.sortEl fuel el st = some st1 ∧ SortPost g [el] st st1

/-- Well-formedness of the store: the nodes are the keys of both maps and every
callee is a node. -/
structure WF (g : CallGraph T) : Prop where
  keys_out : ∀ x, x ∈ g.nodes ↔ (omFind g.out_edges x).isSome = true
  keys_in : ∀ x, x ∈ g.nodes ↔ (omFind g.in_edges x).isSome = true
  callee_mem : ∀ a b, g.edge a b → b ∈ g.nodes

/-! ## Notions for the graph store -/

/-- The callers of `b`: the vector `*in_edges[b]`, empty for an unknown node. -/
def callers (g : CallGraph T) (b : T) : List T :=
  match omFind g.in_edges b with
  | none => []
  | some cs => cs

/-- The client call `op` names the node `n`, as an added node or as an endpoint of an
added edge. -/
def mentions (n : T) : Op T → Prop
  | Op.node m => n = m
  | Op.edge a b => n = a ∨ n = b

/-- The graph after `k` more calls `add(a, b)`. -/
def addEdgeTimes (g : CallGraph T) (a b : T) : Nat → CallGraph T
  | 0 => g
  | k + 1 => (addEdgeTimes g a b k).addEdge a b

/-- Edge symmetry: `b` occurs in the callees of `a` as often as `a` in the callers of `b`. -/
def EdgeSym (g : CallGraph T) : Prop :=
  ∀ a b, (g.callees a).count b = (g.callers b).count a

/-- The set `nodes` is kept in ascending order and holds the keys of `out_edges`, each
once. -/
def NodesInv (g : CallGraph T) : Prop :=
  g.nodes.Sorted (· ≤ ·) ∧ g.nodes.Perm (omKeys g.out_edges)

/-! ## Invariants of the component search -/

/-- The output `out` is a concatenation of blocks, each of them a whole strongly
connected component whose edges lead into the block itself or into earlier blocks. -/
inductive SccList (g : CallGraph T) : List T → Prop
  | nil : SccList g []
  | snoc (out block : List T) : SccList g out →
      (∀ a ∈ block, ∀ b, b ∈ block ↔ g.SameScc a b) →
      (∀ a ∈ block, ∀ b, g.edge a b → b ∈ out ∨ b ∈ block) →
      block.Nodup → (∀ a ∈ block, a ∉ out) → SccList g (out ++ block)

/-- Node `x` has been given an index. -/
def Vis (h : sccInfo T) (x : T) : Prop := h.index x ≠ none

/-- The index of `x`, read with `get`. -/
def idx (h : sccInfo T) (x : T) : Nat := sccInfo.get h.index x

/-- The lowlink of `x`, read with `get`. -/
def low (h : sccInfo T) (x : T) : Nat := sccInfo.get h.lowlink x

/-- The invariant of Tarjan's algorithm between two visits. -/
structure SccInv (g : CallGraph T) (h : sccInfo T) (out : List T) : Prop where
  idx_lt : ∀ x, Vis h x → idx h x < h.crtIndex
  sorted : h.stack.Pairwise (fun a b => idx h b < idx h a)
  onStack_iff : ∀ x, x ∈ h.onStack ↔ x ∈ h.stack
  vis_iff : ∀ x, Vis h x ↔ x ∈ h.stack ∨ x ∈ out
  disj : ∀ x, x ∈ h.stack → x ∉ out
  reach_up : ∀ x ∈ h.stack, ∀ y ∈ h.stack, idx h x ≤ idx h y → g.Reach x y
  low_ok : ∀ y ∈ h.stack, low h y ≤ idx h y ∧ ∃ z ∈ h.stack, idx h z = low h y ∧ g.Reach y z
  sccs : SccList g out

/-- What the visit of `v` started in `h0` keeps and adds. -/
structure SccExt (g : CallGraph T) (v : T) (h0 h : sccInfo T) : Prop where
  index_keep : ∀ x, Vis h0 x → h.index x = h0.index x
  low_keep : ∀ x, Vis h0 x → h.lowlink x = h0.lowlink x
  new_reach : ∀ x, ¬ Vis h0 x → Vis h x → g.Reach v x ∧ h0.crtIndex ≤ idx h x

/-- The flag `loop` tells whether a component of two or more nodes was emitted since
`out0`. -/
def FlagOk (g : CallGraph T) (loop : Bool) (out0 out : List T) : Prop :=
  ∃ newout, out = out0 ++ newout ∧
    (loop = true ↔ ∃ a ∈ newout, ∃ b ∈ newout, a ≠ b ∧ g.SameScc a b)

/-- The nodes `np` pushed above the old stack `s0` during the visit of `v` and left
there: they reach `v`, all their callees are visited, and their edges into the old
stack end at indices not below the bound `b`. -/
def OpenPart (g : CallGraph T) (v : T) (s0 : List T) (h : sccInfo T) (np : List T)
    (b : Nat) : Prop :=
  (∀ y ∈ np, g.Reach y v) ∧ (∀ y ∈ np, ∀ z, g.edge y z → Vis h z) ∧
    ∀ y ∈ np, ∀ z ∈ s0, g.edge y z → b ≤ idx h z

/-- What a visit of `v` started in `(h0, out0)` guarantees on return. -/
structure SccPost (g : CallGraph T) (v : T) (h0 : sccInfo T) (out0 : List T)
    (r : Bool × sccInfo T × List T) : Prop where
  inv : SccInv g r.2.1 r.2.2
  ext : SccExt g v h0 r.2.1
  flag : FlagOk g r.1 out0 r.2.2
  idx_v : r.2.1.index v = some h0.crtIndex
  stack : (r.2.1.stack = h0.stack ∧ v ∈ r.2.2 ∧ low r.2.1 v = idx r.2.1 v) ∨
    (∃ np, r.2.1.stack = np ++ h0.stack ∧ v ∈ np ∧
      OpenPart g v h0.stack r.2.1 np (low r.2.1 v) ∧ low r.2.1 v < idx r.2.1 v)

/-- The invariant of the loop over the callees of `v`, after the callees `done`, with
the bound `b` on the indices of the old stack that are targets of edges seen so far. -/
structure SccLoopB (g : CallGraph T) (v : T) (h0 : sccInfo T) (out0 : List T)
    (done : List T) (b : Nat) (st : Bool × sccInfo T × List T) : Prop where
  inv : SccInv g st.2.1 st.2.2
  ext : SccExt g v h0 st.2.1
  flag : FlagOk g st.1 out0 st.2.2
  idx_v : st.2.1.index v = some h0.crtIndex
  stack : ∃ np, st.2.1.stack = np ++ v :: h0.stack ∧ OpenPart g v h0.stack st.2.1 np b
  done_vis : ∀ z ∈ done, Vis st.2.1 z
  done_low : ∀ z ∈ done, z ∈ h0.stack → b ≤ idx st.2.1 z

/-- The invariant of the loop over the callees of `v`: the bound is `lowlink[v]`. -/
def SccLoop (g : CallGraph T) (v : T) (h0 : sccInfo T) (out0 : List T)
    (done : List T) (st : Bool × sccInfo T × List T) : Prop :=
  SccLoopB g v h0 out0 done (low st.2.1 v) st

/-- The number of nodes of the graph that have no index yet. -/
def unvisited (g : CallGraph T) (h : sccInfo T) : Nat :=
  g.nodes.countP (fun x => (h.index x).isNone)

/-- What the loop needs from the recursive call on `next`. -/
def RecOk (g : CallGraph T) (v : T) (h0 : sccInfo T)
    (rec : T → sccInfo T × List T → Option (Bool × sccInfo T × List T)) (next : T) : Prop :=
  ∀ h out, SccInv g h out → ¬ Vis h next → (∀ y ∈ h.stack, g.Reach y next) →
    (∀ x, x = v ∨ Vis h0 x → Vis h x) →
    ∃ r, rec next (h, out) = some r ∧ SccPost g next h out r

/-- Puts `out0` in front of the output of a state. -/
def prepend (out0 : List T) (r : Bool × sccInfo T × List T) : Bool × sccInfo T × List T :=
  (r.1, r.2.1, out0 ++ r.2.2)

/-! ## The graphs of the end-to-end scenarios

Nodes are natural numbers, `A = 1`, `B = 2`, `C = 3`, `D = 4`; the value-initialised
node is `0`. -/

/-- Linear chain A→B→C→D. -/
def chain : CallGraph Nat := build [Op.edge 1 2, Op.edge 2 3, Op.edge 3 4]

/-- Diamond A→B, A→C, B→D, C→D. -/
def diamond : CallGraph Nat := build [Op.edge 1 2, Op.edge 1 3, Op.edge 2 4, Op.edge 3 4]

/-- Self-loop A→A. -/
def selfLoop : CallGraph Nat := build [Op.edge 1 1]

/-- Two-node cycle A→B→A. -/
def twoCycle : CallGraph Nat := build [Op.edge 1 2, Op.edge 2 1]

/-- Simple cycle A→B→C→A. -/
def simpleCycle : CallGraph Nat := build [Op.edge 1 2, Op.edge 2 3, Op.edge 3 1]

/-- Nested loops A→B, B→C, C→B, B→D, D→A. -/
def nested : CallGraph Nat :=
  build [Op.edge 1 2, Op.edge 2 3, Op.edge 3 2, Op.edge 2 4, Op.edge 4 1]

/-- Two isolated nodes, B added before A. -/
def isolatedBA : CallGraph Nat := build [Op.node 2, Op.node 1]

/-- Two isolated nodes A and B. -/
def isolatedAB : CallGraph Nat := build [Op.node 1, Op.node 2]

/-! ## Fuel -/

omit [LinearOrder T] in
theorem forEachM_mono {σ : Type} {f f1 : T → σ → Option σ}
    (h : ∀ c s r, f c s = some r → f1 c s = some r) :
    ∀ (l : List T) (s r : σ), forEachM f l s = some r → forEachM f1 l s = some r := by
  intro l
  induction l with
  | nil => intro s r hr; simpa [forEachM] using hr
  | cons c cs ih =>
    intro s r hr
    simp only [forEachM] at hr ⊢
    cases hc : f c s with
    | none => simp [hc] at hr
    | some s1 =>
      rw [hc] at hr
      rw [h c s s1 hc]
      exact ih s1 r hr

/-- Unfolding of one call of the recursive `sort`. -/
theorem sortEl_succ (g : CallGraph T) (fuel : Nat) (el : T) (st : List T × Finset T) :
    g.sortEl (fuel + 1) el st =
      if el ∈ st.2 then some st
      else (forEachM (g.sortEl fuel) (g.callees el) st).map
        (fun st1 => (st1.1 ++ [el], insert el st1.2)) := by
  by_cases hd : el ∈ st.2
  · simp [sortEl, hd]
  · cases hf : omFind g.out_edges el with
    | none => simp [sortEl, hd, isCaller, callees, hf, forEachM]
    | some cs =>
      simp only [sortEl, hd, isCaller, callees, hf, if_false, Option.isSome_some, if_true]
      cases forEachM (g.sortEl fuel) cs st <;> simp

theorem sortEl_mono (g : CallGraph T) (fuel : Nat) :
    ∀ (el : T) (st r : List T × Finset T),
      g.sortEl fuel el st = some r → g.sortEl (fuel + 1) el st = some r := by
  induction fuel with
  | zero => intro el st r h; simp [sortEl] at h
  | succ n ih =>
    intro el st r h
    rw [sortEl_succ] at h ⊢
    by_cases hd : el ∈ st.2
    · simpa [hd] using h
    · simp only [hd, if_false, Option.map_eq_some'] at h ⊢
      obtain ⟨st1, h1, h2⟩ := h
      exact ⟨st1, forEachM_mono ih _ _ _ h1, h2⟩

theorem sortEl_mono_le (g : CallGraph T) {fuel fuel1 : Nat} (hle : fuel ≤ fuel1)
    (el : T) (st r : List T × Finset T) (h : g.sortEl fuel el st = some r) :
    g.sortEl fuel1 el st = some r := by
  induction hle with
  | refl => exact h
  | step _ ih => exact sortEl_mono g _ el st r ih

/-! ## Reachability sort on acyclic graphs -/

theorem omFind_mem {m : List (T × List T)} {a : T} {cs : List T}
    (h : omFind m a = some cs) : (a, cs) ∈ m := by
  induction m with
  | nil => simp [omFind] at h
  | cons kv rest ih =>
    obtain ⟨k, v⟩ := kv
    simp only [omFind] at h
    by_cases hk : k = a
    · simp only [hk, if_true, Option.some.injEq] at h
      simp [hk, h]
    · simp only [hk, if_false] at h
      exact List.mem_cons_of_mem _ (ih h)

theorem edge_iff {g : CallGraph T} {a b : T} :
    g.edge a b ↔ ∃ cs, omFind g.out_edges a = some cs ∧ b ∈ cs := by
  unfold edge callees
  cases omFind g.out_edges a <;> simp

theorem edge_mentioned {g : CallGraph T} {a b : T} (h : g.edge a b) :
    a ∈ g.mentioned ∧ b ∈ g.mentioned := by
  obtain ⟨cs, hf, hb⟩ := edge_iff.1 h
  have hm := omFind_mem hf
  simp only [mentioned, List.mem_flatMap]
  exact ⟨⟨(a, cs), hm, by simp⟩, ⟨(a, cs), hm, by simp [hb]⟩⟩

theorem Good.step {g : CallGraph T} {a b : T} (h : Good g a) (hab : g.edge a b) : Good g b :=
  fun x hx => h x (Relation.ReflTransGen.head hab hx)

theorem transGen_flip {g : CallGraph T} {a c : T}
    (h : Relation.TransGen (fun b a => g.edge a b ∧ Good g a) c a) :
    Relation.TransGen g.edge a c ∧ Good g a := by
  induction h with
  | single h1 => exact ⟨Relation.TransGen.single h1.1, h1.2⟩
  | tail _ h2 ih => exact ⟨Relation.TransGen.head h2.1 ih.1, h2.2⟩

theorem wf_callee (g : CallGraph T) :
    WellFounded (fun b a => g.edge a b ∧ Good g a) := by
  have hirr : IsStrictOrder T (Relation.TransGen (fun b a => g.edge a b ∧ Good g a)) :=
    { irrefl := fun a h => (transGen_flip h).2 a Relation.ReflTransGen.refl (transGen_flip h).1
      trans := fun _ _ _ h1 h2 => Relation.TransGen.trans h1 h2 }
  have hfin : (g.mentioned.toFinset : Set T).Finite := Finset.finite_toSet _
  have hwf := Set.wellFoundedOn_iff.1
    (hfin.wellFoundedOn (r := Relation.TransGen (fun b a => g.edge a b ∧ Good g a)))
  refine Subrelation.wf ?_ hwf
  intro b a h
  have hm := edge_mentioned h.1
  exact ⟨Relation.TransGen.single h, by simpa using hm.2, by simpa using hm.1⟩


theorem Before.append {out : List T} {a b : T} (h : Before out b a) (l : List T) :
    Before (out ++ l) b a := by
  obtain ⟨hb, ha, hlt⟩ := h
  refine ⟨List.mem_append_left _ hb, List.mem_append_left _ ha, ?_⟩
  rw [List.indexOf_append_of_mem hb, List.indexOf_append_of_mem ha]
  exact hlt

theorem Before.snoc {out : List T} {a b : T} (hb : b ∈ out) (ha : a ∉ out) :
    Before (out ++ [a]) b a := by
  refine ⟨List.mem_append_left _ hb, by simp, ?_⟩
  rw [List.indexOf_append_of_mem hb, List.indexOf_append_of_not_mem ha]
  have := List.indexOf_lt_length.2 hb
  simp
  omega

theorem forEach_sortOk (g : CallGraph T) (cs : List T) (h : ∀ c ∈ cs, SortOk g c) :
    ∃ fuel, ∀ st, SortInv g st →
      ∃ st1, forEachM (g.sortEl fuel) cs st = some st1 ∧ SortPost g cs st st1 := by
  induction cs with
  | nil =>
    exact ⟨0, fun st hst => ⟨st, rfl, hst, ⟨[], by simp, by simp⟩, by simp⟩⟩
  | cons c cs ih =>
    obtain ⟨f1, h1⟩ := h c (by simp)
    obtain ⟨f2, h2⟩ := ih (fun x hx => h x (List.mem_cons_of_mem _ hx))
    refine ⟨max f1 f2, fun st hst => ?_⟩
    obtain ⟨st1, e1, inv1, ⟨new1, hn1, hr1⟩, hc1⟩ := h1 st hst
    obtain ⟨st2, e2, inv2, ⟨new2, hn2, hr2⟩, hc2⟩ := h2 st1 inv1
    refine ⟨st2, ?_, inv2, ⟨new1 ++ new2, ?_, ?_⟩, ?_⟩
    · simp only [forEachM]
      rw [sortEl_mono_le g (le_max_left f1 f2) c st st1 e1]
      exact forEachM_mono (fun x s r hx => sortEl_mono_le g (le_max_right f1 f2) x s r hx) _ _ _ e2
    · rw [hn2, hn1, List.append_assoc]
    · intro x hx
      rcases List.mem_append.1 hx with hx | hx
      · obtain ⟨r, hr, hrx⟩ := hr1 x hx
        simp only [List.mem_singleton] at hr
        exact ⟨c, by simp, hr ▸ hrx⟩
      · obtain ⟨r, hr, hrx⟩ := hr2 x hx
        exact ⟨r, List.mem_cons_of_mem _ hr, hrx⟩
    · intro x hx
      rcases List.mem_cons.1 hx with hx | hx
      · rw [hn2]
        exact List.mem_append_left _ (hx ▸ hc1 c (by simp))
      · exact hc2 x hx

theorem sortOk_of_good (g : CallGraph T) (el : T) (hgood : Good g el) : SortOk g el := by
  induction el using (wf_callee g).induction with
  | _ el ih =>
    have hcs : ∀ c ∈ g.callees el, SortOk g c :=
      fun c hc => ih c ⟨hc, hgood⟩ (hgood.step hc)
    obtain ⟨f, hf⟩ := forEach_sortOk g (g.callees el) hcs
    refine ⟨f + 1, fun st hst => ?_⟩
    rw [sortEl_succ]
    by_cases hd : el ∈ st.2
    · refine ⟨st, by simp [hd], hst, ⟨[], by simp, by simp⟩, ?_⟩
      intro c hc
      simp only [List.mem_singleton] at hc
      exact hc ▸ (hst.1 el).1 hd
    · obtain ⟨st1, e1, inv1, ⟨new1, hn1, hr1⟩, hc1⟩ := hf st hst
      have hnot : el ∉ st1.1 := by
        intro hmem
        rw [hn1] at hmem
        rcases List.mem_append.1 hmem with hm | hm
        · exact hd ((hst.1 el).2 hm)
        · obtain ⟨c, hc, hreach⟩ := hr1 el hm
          exact hgood el Relation.ReflTransGen.refl
            (Relation.TransGen.head' (show g.edge el c from hc) hreach)
      refine ⟨(st1.1 ++ [el], insert el st1.2), by simp [hd, e1], ⟨?_, ?_, ?_⟩,
        ⟨new1 ++ [el], by simp [hn1], ?_⟩, by simp⟩
      · intro x
        simp [inv1.1 x, or_comm]
      · exact List.Nodup.append inv1.2.1 (by simp) (by simpa using hnot)
      · intro a ha b hab
        rcases List.mem_append.1 ha with ha | ha
        · exact (inv1.2.2 a ha b hab).append _
        · simp only [List.mem_singleton] at ha
          subst ha
          exact Before.snoc (hc1 b hab) hnot
      · intro x hx
        rcases List.mem_append.1 hx with hx | hx
        · obtain ⟨c, hc, hreach⟩ := hr1 x hx
          exact ⟨el, by simp, Relation.ReflTransGen.head (show g.edge el c from hc) hreach⟩
        · simp only [List.mem_singleton] at hx
          exact ⟨el, by simp, hx ▸ Relation.ReflTransGen.refl⟩


/-! ## Graphs built by `add` -/

theorem omFind_omAssign (m : List (T × List T)) (k : T) (v : List T) (x : T) :
    omFind (omAssign m k v) x = if k = x then some v else omFind m x := by
  induction m with
  | nil => simp [omAssign, omFind]
  | cons kv rest ih =>
    obtain ⟨k1, w⟩ := kv
    by_cases h1 : k1 = k
    · subst h1
      by_cases h2 : k1 = x <;> simp [omAssign, omFind, h2]
    · by_cases h2 : k1 = x
      · subst h2
        have h3 : ¬ k = k1 := fun h => h1 h.symm
        simp [omAssign, omFind, h1, h3]
      · simp [omAssign, omFind, h1, h2, ih]

theorem omFind_omPushBack (m : List (T × List T)) (k y x : T) :
    omFind (omPushBack m k y) x =
      if k = x then (omFind m x).map (fun w => w ++ [y]) else omFind m x := by
  induction m with
  | nil => simp [omPushBack, omFind]
  | cons kv rest ih =>
    obtain ⟨k1, w⟩ := kv
    by_cases h1 : k1 = k
    · subst h1
      by_cases h2 : k1 = x <;> simp [omPushBack, omFind, h2]
    · by_cases h2 : k1 = x
      · subst h2
        have h3 : ¬ k = k1 := fun h => h1 h.symm
        simp [omPushBack, omFind, h1, h3]
      · simp [omPushBack, omFind, h1, h2, ih]

theorem callees_add {g : CallGraph T} (hg : WF g) (n a : T) :
    (g.add n).callees a = g.callees a := by
  unfold add
  by_cases hn : n ∈ g.nodes
  · simp [hn]
  · simp only [hn, if_false, callees, omFind_omAssign]
    by_cases hna : n = a
    · subst hna
      have : omFind g.out_edges n = none := by
        have := (hg.keys_out n).not.1 hn
        simpa using this
      simp [this]
    · simp [hna]

theorem WF.add {g : CallGraph T} (hg : WF g) (n : T) : WF (g.add n) := by
  refine ⟨?_, ?_, ?_⟩
  · intro x
    unfold CallGraph.add
    by_cases hn : n ∈ g.nodes
    · simpa [hn] using hg.keys_out x
    · simp only [hn, if_false, omFind_omAssign, List.mem_orderedInsert]
      by_cases hx : n = x
      · simp [hx]
      · have hx1 : ¬ x = n := fun h => hx h.symm
        simpa [hx, hx1] using hg.keys_out x
  · intro x
    unfold CallGraph.add
    by_cases hn : n ∈ g.nodes
    · simpa [hn] using hg.keys_in x
    · simp only [hn, if_false, omFind_omAssign, List.mem_orderedInsert]
      by_cases hx : n = x
      · simp [hx]
      · have hx1 : ¬ x = n := fun h => hx h.symm
        simpa [hx, hx1] using hg.keys_in x
  · intro a b hab
    have hab1 : g.edge a b := by
      unfold edge at hab ⊢
      rwa [callees_add hg] at hab
    have := hg.callee_mem a b hab1
    unfold CallGraph.add
    by_cases hn : n ∈ g.nodes
    · simpa [hn] using this
    · simp [hn, List.mem_orderedInsert, this]

theorem mem_nodes_add (g : CallGraph T) (n x : T) :
    x ∈ (g.add n).nodes ↔ x = n ∨ x ∈ g.nodes := by
  unfold CallGraph.add
  by_cases hn : n ∈ g.nodes
  · simp only [hn, if_true]
    constructor
    · exact fun h => Or.inr h
    · rintro (h | h)
      · exact h ▸ hn
      · exact h
  · simp [hn, List.mem_orderedInsert]

theorem callees_addEdge {g : CallGraph T} (hg : WF g) (a b x : T) :
    (g.addEdge a b).callees x = if a = x then g.callees x ++ [b] else g.callees x := by
  have h1 := hg.add a
  have h2 := h1.add b
  have hmem : a ∈ ((g.add a).add b).nodes := by
    rw [mem_nodes_add, mem_nodes_add]; simp
  have hkey := (h2.keys_out a).1 hmem
  have hc : ∀ y, ((g.add a).add b).callees y = g.callees y := fun y => by
    rw [callees_add h1, callees_add hg]
  simp only [addEdge, callees, omFind_omPushBack]
  by_cases hax : a = x
  · subst hax
    obtain ⟨cs, hcs⟩ := Option.isSome_iff_exists.1 hkey
    have := hc a
    simp only [callees, hcs] at this
    simp [hcs, ← this]
  · have := hc x
    simp only [callees] at this
    simp [hax, this]

theorem WF.addEdge {g : CallGraph T} (hg : WF g) (a b : T) : WF (g.addEdge a b) := by
  have h1 := hg.add a
  have h2 := h1.add b
  refine ⟨?_, ?_, ?_⟩
  · intro x
    have := h2.keys_out x
    simp only [CallGraph.addEdge, omFind_omPushBack]
    by_cases hax : a = x <;> simpa [hax] using this
  · intro x
    have := h2.keys_in x
    simp only [CallGraph.addEdge, omFind_omPushBack]
    by_cases hbx : b = x <;> simpa [hbx] using this
  · intro x y hxy
    have hn : (g.addEdge a b).nodes = ((g.add a).add b).nodes := rfl
    rw [hn, mem_nodes_add, mem_nodes_add]
    unfold edge at hxy
    rw [callees_addEdge hg] at hxy
    by_cases hax : a = x
    · simp only [hax, if_true, List.mem_append, List.mem_singleton] at hxy
      rcases hxy with h | h
      · exact Or.inr (Or.inr (hg.callee_mem x y h))
      · exact Or.inl h
    · simp only [hax, if_false] at hxy
      exact Or.inr (Or.inr (hg.callee_mem x y hxy))

theorem WF.empty : WF (CallGraph.empty : CallGraph T) :=
  ⟨fun x => by simp [CallGraph.empty, omFind], fun x => by simp [CallGraph.empty, omFind],
    fun a b h => by simp [edge, callees, CallGraph.empty, omFind] at h⟩

theorem WF.foldl (ops : List (Op T)) : ∀ g : CallGraph T, WF g → WF (ops.foldl Op.apply g) := by
  induction ops with
  | nil => exact fun g hg => hg
  | cons op ops ih =>
    intro g hg
    refine ih _ ?_
    cases op with
    | node n => exact hg.add n
    | edge a b => exact hg.addEdge a b

theorem build_wf (ops : List (Op T)) : WF (build ops) := WF.foldl ops _ WF.empty

theorem edge_source_mem {g : CallGraph T} (hg : WF g) {a b : T} (h : g.edge a b) :
    a ∈ g.nodes := by
  obtain ⟨cs, hf, _⟩ := edge_iff.1 h
  exact (hg.keys_out a).2 (by simp [hf])


/-! ## Top level of the sort -/

theorem sort_roots (g : CallGraph T) (roots : List T) (hac : g.AcyclicFrom roots) :
    ∃ fuel out, (∀ f, fuel ≤ f →
        (forEachM (g.sortEl f) roots ([], ∅)).map Prod.fst = some out) ∧ out.Nodup ∧
      (∀ x, x ∈ out ↔ ∃ s ∈ roots, g.Reach s x) ∧
      (∀ a b, a ∈ out → g.edge a b → Before out b a) := by
  have hinit : SortInv g (([], ∅) : List T × Finset T) := ⟨by simp, by simp, by simp⟩
  obtain ⟨fuel, hf⟩ := forEach_sortOk g roots (fun c hc => sortOk_of_good g c (hac c hc))
  obtain ⟨st1, e1, inv1, ⟨new1, hn1, hr1⟩, hc1⟩ := hf _ hinit
  refine ⟨fuel, st1.1, ?_, inv1.2.1, ?_, fun a b ha hab => inv1.2.2 a ha b hab⟩
  · intro f hle
    rw [forEachM_mono (fun x s r hx => sortEl_mono_le g hle x s r hx) _ _ _ e1]
    rfl
  · intro x
    constructor
    · intro hx
      rw [hn1] at hx
      exact hr1 x (by simpa using hx)
    · rintro ⟨s, hs, hreach⟩
      induction hreach with
      | refl => exact hc1 s hs
      | tail _ hab ih => exact (inv1.2.2 _ ih _ hab).1

theorem chain_edge_lt {a b : Nat} (h : chain.edge a b) : a < b := by
  have hout : chain.out_edges = [(1, [2]), (2, [3]), (3, [4]), (4, [])] := by decide
  obtain ⟨cs, hf, hb⟩ := edge_iff.1 h
  rw [hout] at hf
  simp only [omFind] at hf
  split_ifs at hf with h1 h2 h3 h4
  · simp only [Option.some.injEq] at hf; subst hf; simp at hb; omega
  · simp only [Option.some.injEq] at hf; subst hf; simp at hb; omega
  · simp only [Option.some.injEq] at hf; subst hf; simp at hb; omega
  · simp only [Option.some.injEq] at hf; subst hf; simp at hb

theorem chain_acyclic : chain.Acyclic := by
  intro a h
  have hlt : ∀ x y, Relation.TransGen chain.edge x y → x < y := by
    intro x y hxy
    induction hxy with
    | single h1 => exact chain_edge_lt h1
    | tail _ h2 ih => exact lt_trans ih (chain_edge_lt h2)
  exact lt_irrefl _ (hlt a a h)

/-- Claim C6. When no node reachable from the start list lies on a cycle, the call
`sort(start, out)` on an empty `out` returns (for every large enough bound on the
recursion depth, with one and the same result), and the result has no duplicate,
contains exactly the nodes reachable from some start, and lists every callee before
each of its callers. On the chain A→B→C→D with start A the result is `[D, C, B, A]`. -/
theorem sort_start_list_acyclic (g : CallGraph T) (start : List T)
    (hac : g.AcyclicFrom start) :
    (∃ fuel out, (∀ f, fuel ≤ f → g.sort f start [] = some out) ∧ out.Nodup ∧
      (∀ x, x ∈ out ↔ ∃ s ∈ start, g.Reach s x) ∧
      (∀ a b, a ∈ out → g.edge a b → Before out b a)) ∧
    (∀ f, 4 ≤ f → chain.sort f [1] [] = some [4, 3, 2, 1]) := by
  refine ⟨sort_roots g start hac, fun f hf => ?_⟩
  have h4 : forEachM (chain.sortEl 4) [1] ([], ∅) = some ([4, 3, 2, 1], {1, 2, 3, 4}) := by
    decide
  unfold sort
  rw [forEachM_mono (fun x s r hx => sortEl_mono_le chain hf x s r hx) _ _ _ h4]
  rfl

theorem sort_start_list_acyclic_witness :
    chain.AcyclicFrom [1] ∧
    ((∃ fuel out, (∀ f, fuel ≤ f → chain.sort f [1] [] = some out) ∧ out.Nodup ∧
      (∀ x, x ∈ out ↔ ∃ s ∈ [1], chain.Reach s x) ∧
      (∀ a b, a ∈ out → chain.edge a b → Before out b a)) ∧
    (∀ f, 4 ≤ f → chain.sort f [1] [] = some [4, 3, 2, 1])) :=
  ⟨fun _ _ x _ => chain_acyclic x,
    sort_start_list_acyclic chain [1] (fun _ _ x _ => chain_acyclic x)⟩

/-- Claim C5. On an acyclic graph built by `add` calls, `sort(out)` on an empty `out`
returns, and for every edge `a → b` of the graph `b` occurs in the result at an
earlier position than `a`. -/
theorem sort_postorder_acyclic (ops : List (Op T)) (hac : (build ops).Acyclic) :
    ∃ fuel out, (∀ f, fuel ≤ f → (build ops).sortAll f [] = some out) ∧
      ∀ a b, (build ops).edge a b → Before out b a := by
  obtain ⟨fuel, out, hrun, _, hmem, hord⟩ :=
    sort_roots (build ops) (build ops).nodes (fun _ _ x _ => hac x)
  refine ⟨fuel, out, hrun, fun a b hab => hord a b ?_ hab⟩
  exact (hmem a).2 ⟨a, edge_source_mem (build_wf ops) hab, Relation.ReflTransGen.refl⟩

theorem sort_postorder_acyclic_witness :
    (build [Op.edge 1 2, Op.edge 2 3, Op.edge 3 4] : CallGraph Nat).Acyclic ∧
    ∃ fuel out, (∀ f, fuel ≤ f →
        (build [Op.edge 1 2, Op.edge 2 3, Op.edge 3 4] : CallGraph Nat).sortAll f [] = some out) ∧
      ∀ a b, (build [Op.edge 1 2, Op.edge 2 3, Op.edge 3 4] : CallGraph Nat).edge a b →
        Before out b a :=
  ⟨chain_acyclic, sort_postorder_acyclic [Op.edge 1 2, Op.edge 2 3, Op.edge 3 4] chain_acyclic⟩

theorem dominators_eq_init (g : CallGraph T) (fuel : Nat) (start : T)
    (dom : T → Option (Finset T)) :
    g.dominators fuel start dom = some (g.domInit start dom) := by
  cases fuel <;> rfl

theorem collectBody_mono (g : CallGraph T) (n : T) (fuel : Nat) :
    ∀ (work : List T) (body r : Finset T),
      g.collectBody n fuel work body = some r → g.collectBody n (fuel + 1) work body = some r := by
  induction fuel with
  | zero =>
    intro work body r h
    cases work with
    | nil => simpa [collectBody] using h
    | cons c w => simp [collectBody] at h
  | succ k ih =>
    intro work body r h
    cases work with
    | nil => simpa [collectBody] using h
    | cons c w =>
      rw [collectBody] at h ⊢
      by_cases hc : c = n
      · simp only [hc, if_true] at h ⊢
        exact ih _ _ _ h
      · simp only [hc, if_false] at h ⊢
        cases hf : omFind g.in_edges c with
        | none => simp [hf] at h
        | some preds =>
          simp only [hf] at h ⊢
          exact ih _ _ _ h

theorem loopEdge_mono [Inhabited T] (g : CallGraph T) (fuel : Nat) (dome : Finset T) (e n : T)
    (st r : LoopState T) (h : g.loopEdge fuel dome e n st = some r) :
    g.loopEdge (fuel + 1) dome e n st = some r := by
  unfold loopEdge at h ⊢
  by_cases hn : n ∈ dome
  · simp only [hn, if_true] at h ⊢
    generalize findLoop st n = st1 at h ⊢
    cases hl : st1.1.loops[st1.2]? with
    | none => simp [hl] at h
    | some loop =>
      simp only [hl] at h ⊢
      cases hb : g.collectBody n fuel [e] loop.body with
      | none => simp [hb] at h
      | some body =>
        simp only [hb] at h
        simp only [collectBody_mono g n fuel _ _ _ hb]
        exact h
  · simpa [hn] using h

theorem loopNode_mono [Inhabited T] (g : CallGraph T) (fuel : Nat) (dom : T → Option (Finset T))
    (e : T) (st r : LoopState T) (h : g.loopNode fuel dom e st = some r) :
    g.loopNode (fuel + 1) dom e st = some r := by
  unfold loopNode at h ⊢
  cases hf : omFind g.out_edges e with
  | none => simp [hf] at h
  | some next =>
    simp only [hf] at h ⊢
    exact forEachM_mono (fun c s r1 h1 => loopEdge_mono g fuel _ e c s r1 h1) _ _ _ h

theorem compute_loops_mono [Inhabited T] (g : CallGraph T) {fuel fuel1 : Nat} (hle : fuel ≤ fuel1)
    (start : T) (loops r : List (Loop T)) (h : g.compute_loops fuel start loops = some r) :
    g.compute_loops fuel1 start loops = some r := by
  induction hle with
  | refl => exact h
  | step _ ih =>
    simp only [compute_loops, dominators_eq_init, Option.map_eq_some'] at ih ⊢
    obtain ⟨s, hs, hr⟩ := ih
    exact ⟨s, forEachM_mono (fun c s r1 h1 => loopNode_mono g _ _ c s r1 h1) _ _ _ hs, hr⟩


/-! ## Dominators and loops on the scenarios -/

theorem diamond_path_AB : diamond.IsPath 1 2 [1, 2] := by
  refine ⟨?_, rfl, rfl⟩
  simp only [List.chain'_cons, List.chain'_singleton, and_true]
  decide

/-- Claim C1, evaluated on the Diamond with start A: `dominators` returns, whatever
the bound on the iterations, the map `{A:{A}, B:{A,B,C,D}, C:{A,B,C,D}, D:{A,B,C,D}}`,
which is not the dominator relation: `C ∈ dom[B]` although the path `A, B` avoids C. -/
theorem dominators_diamond_not_dominator_relation :
    ∃ dom, (∀ fuel, diamond.dominators fuel 1 (fun _ => none) = some dom) ∧
      domGet dom 1 = {1} ∧ domGet dom 2 = {1, 2, 3, 4} ∧ domGet dom 3 = {1, 2, 3, 4} ∧
      domGet dom 4 = {1, 2, 3, 4} ∧
      ¬ (∀ d, d ∈ domGet dom 2 ↔ diamond.Dominates 1 d 2) := by
  refine ⟨_, fun fuel => dominators_eq_init _ fuel _ _, by decide, by decide, by decide,
    by decide, ?_⟩
  intro h
  have h3 : diamond.Dominates 1 3 2 := (h 3).1 (by decide)
  exact absurd (h3 [1, 2] diamond_path_AB) (by decide)

theorem sortEl_selfLoop_none : ∀ fuel, selfLoop.sortEl fuel 1 ([], ∅) = none := by
  intro fuel
  induction fuel with
  | zero => rfl
  | succ n ih =>
    rw [sortEl_succ]
    have hc : selfLoop.callees 1 = [1] := by decide
    simp [hc, forEachM, ih]

theorem sortEl_twoCycle_none : ∀ fuel, twoCycle.sortEl fuel 1 ([], ∅) = none ∧
    twoCycle.sortEl fuel 2 ([], ∅) = none := by
  intro fuel
  induction fuel with
  | zero => exact ⟨rfl, rfl⟩
  | succ n ih =>
    have hc1 : twoCycle.callees 1 = [2] := by decide
    have hc2 : twoCycle.callees 2 = [1] := by decide
    constructor
    · rw [sortEl_succ]; simp [hc1, forEachM, ih.2]
    · rw [sortEl_succ]; simp [hc2, forEachM, ih.1]

/-- Claim C7, evaluated on the cycle A→B→A: `sort(out)` returns for no bound on the
recursion depth, so it produces no permutation of the nodes. -/
theorem sortAll_twoCycle_diverges : ∀ fuel, twoCycle.sortAll fuel [] = none := by
  intro fuel
  have hn : twoCycle.nodes = [1, 2] := by decide
  simp [sortAll, hn, forEachM, (sortEl_twoCycle_none fuel).1]

/-- Claim C8, evaluated on the self-loop A→A: neither `sort([A], out)` nor `sort(out)`
returns, for any bound on the recursion depth; the `done` check does not skip the
self-edge because `A` enters `done` only after its callees were sorted. -/
theorem sort_selfLoop_diverges :
    (∀ fuel, selfLoop.sort fuel [1] [] = none) ∧ (∀ fuel, selfLoop.sortAll fuel [] = none) := by
  have hn : selfLoop.nodes = [1] := by decide
  constructor <;> intro fuel <;> simp [sort, sortAll, hn, forEachM, sortEl_selfLoop_none fuel]

/-- Claim C9, evaluated on the Diamond with start A: `compute_loops` returns one loop
record, with the back-edge tails `{B, C}` (edges `B → D`, `C → D`), although `D`
dominates neither `B` nor `C`, so the Diamond has no back-edge. -/
theorem compute_loops_diamond_reports_loop :
    ∃ l, (∀ fuel, 2 ≤ fuel → diamond.compute_loops fuel 1 [] = some [l]) ∧
      l.back_edge_heads = {2, 3} ∧ ¬ diamond.Dominates 1 4 2 ∧ ¬ diamond.Dominates 1 4 3 := by
  refine ⟨_, fun fuel h => compute_loops_mono _ h _ _ _ rfl, by decide, ?_, ?_⟩
  · intro h
    exact absurd (h [1, 2] diamond_path_AB) (by decide)
  · intro h
    have hp : diamond.IsPath 1 3 [1, 3] := by
      refine ⟨?_, rfl, rfl⟩
      simp only [List.chain'_cons, List.chain'_singleton, and_true]
      decide
    exact absurd (h [1, 3] hp) (by decide)

/-- Claim C20, evaluated on the simple cycle A→B→C→A with start A: `compute_loops`
returns two loop records (for the edges `B → C` and `C → A`), both with the
value-initialised `entry`, so the entries are not pairwise distinct, and the tails
`{B}` and `{C}` are not the sources of edges into that entry. -/
theorem compute_loops_simpleCycle_two_loops :
    ∃ l1 l2, (∀ fuel, 3 ≤ fuel → simpleCycle.compute_loops fuel 1 [] = some [l1, l2]) ∧
      l1.back_edge_heads = {2} ∧ l2.back_edge_heads = {3} ∧ l1.entry = 0 ∧ l2.entry = 0 ∧
      l1.entry = l2.entry ∧ ∀ e, ¬ simpleCycle.edge e l1.entry := by
  refine ⟨_, _, fun fuel h => compute_loops_mono _ h _ _ _ rfl, by decide, by decide,
    by decide, by decide, by decide, ?_⟩
  intro e he
  have hmem : (0 : Nat) ∈ simpleCycle.nodes :=
    (build_wf [Op.edge 1 2, Op.edge 2 3, Op.edge 3 1]).callee_mem e 0 he
  exact absurd hmem (by decide)

/-- Claim C10, evaluated on the Diamond with start A: the only loop record returned
has the value-initialised `entry` (the code never assigns it) and the body `{A, B, C}`,
which contains neither that entry nor the head `D` the record was created for. -/
theorem compute_loops_diamond_entry_not_in_body :
    ∃ l, (∀ fuel, 2 ≤ fuel → diamond.compute_loops fuel 1 [] = some [l]) ∧
      l.entry = 0 ∧ l.body = {1, 2, 3} ∧ l.entry ∉ l.body ∧ 4 ∉ l.body := by
  refine ⟨_, fun fuel h => compute_loops_mono _ h _ _ _ rfl, by decide, by decide, by decide,
    by decide⟩

/-! ## Strongly connected components: correctness -/

theorem SameScc.refl (g : CallGraph T) (a : T) : g.SameScc a a :=
  ⟨Relation.ReflTransGen.refl, Relation.ReflTransGen.refl⟩

theorem SameScc.symm {g : CallGraph T} {a b : T} (h : g.SameScc a b) : g.SameScc b a :=
  ⟨h.2, h.1⟩

theorem SameScc.trans {g : CallGraph T} {a b c : T} (h1 : g.SameScc a b) (h2 : g.SameScc b c) :
    g.SameScc a c :=
  ⟨h1.1.trans h2.1, h2.2.trans h1.2⟩

theorem SccList.nodup {g : CallGraph T} {out : List T} (h : SccList g out) : out.Nodup := by
  induction h with
  | nil => simp
  | snoc out block _ _ _ hnd hdisj ih =>
    exact List.Nodup.append ih hnd (fun a ha hb => hdisj a hb ha)

theorem SccList.edge_closed {g : CallGraph T} {out : List T} (h : SccList g out) :
    ∀ a ∈ out, ∀ b, g.edge a b → b ∈ out := by
  induction h with
  | nil => simp
  | snoc out block _ _ hedge _ _ ih =>
    intro a ha b hab
    rcases List.mem_append.1 ha with ha | ha
    · exact List.mem_append_left _ (ih a ha b hab)
    · exact List.mem_append.2 (hedge a ha b hab)

theorem SccList.reach_closed {g : CallGraph T} {out : List T} (h : SccList g out)
    {a b : T} (ha : a ∈ out) (hab : g.Reach a b) : b ∈ out := by
  induction hab with
  | refl => exact ha
  | tail _ h2 ih => exact h.edge_closed _ ih _ h2

/-- Every component occupies consecutive positions of the output. -/
theorem SccList.contiguous {g : CallGraph T} {out : List T} (h : SccList g out) :
    ∀ x ∈ out, ∃ pre comp post, out = pre ++ comp ++ post ∧ ∀ y, y ∈ comp ↔ g.SameScc x y := by
  induction h with
  | nil => simp
  | snoc out block _ hscc _ _ _ ih =>
    intro x hx
    rcases List.mem_append.1 hx with hx | hx
    · obtain ⟨pre, comp, post, he, hc⟩ := ih x hx
      exact ⟨pre, comp, post ++ block, by simp [he], hc⟩
    · exact ⟨out, block, [], by simp, hscc x hx⟩

/-- Components are listed callees first. -/
theorem SccList.ordered {g : CallGraph T} {out : List T} (h : SccList g out) :
    ∀ u ∈ out, ∀ w, g.edge u w → ¬ g.SameScc u w →
      ∀ u1 w1, g.SameScc u u1 → g.SameScc w w1 → Before out w1 u1 := by
  induction h with
  | nil => simp
  | snoc out block hout hscc hedge _ hdisj ih =>
    intro u hu w huw hne u1 w1 hu1 hw1
    rcases List.mem_append.1 hu with hu | hu
    · exact (ih u hu w huw hne u1 w1 hu1 hw1).append _
    · have hu1b : u1 ∈ block := (hscc u hu u1).2 hu1
      have hw : w ∈ out := by
        rcases hedge u hu w huw with hw | hw
        · exact hw
        · exact absurd ((hscc u hu w).1 hw) hne
      have hw1o : w1 ∈ out := hout.reach_closed hw hw1.1
      have hu1o : u1 ∉ out := hdisj u1 hu1b
      refine ⟨List.mem_append_left _ hw1o, List.mem_append_right _ hu1b, ?_⟩
      rw [List.indexOf_append_of_mem hw1o, List.indexOf_append_of_not_mem hu1o]
      have := List.indexOf_lt_length.2 hw1o
      omega


/-! ### State updates -/

omit [LinearOrder T] in
theorem idx_of_index {h : sccInfo T} {x : T} {i : Nat} (hx : h.index x = some i) :
    idx h x = i := by
  simp [idx, sccInfo.get, hx]

theorem setLowLink_index (h : sccInfo T) (v n : T) : (h.setLowLink v n).index = h.index := by
  unfold sccInfo.setLowLink sccInfo.setLowLinkValue
  dsimp only
  split_ifs <;> rfl

theorem setLowLink_stack (h : sccInfo T) (v n : T) : (h.setLowLink v n).stack = h.stack := by
  unfold sccInfo.setLowLink sccInfo.setLowLinkValue
  dsimp only
  split_ifs <;> rfl

theorem setLowLink_onStack (h : sccInfo T) (v n : T) :
    (h.setLowLink v n).onStack = h.onStack := by
  unfold sccInfo.setLowLink sccInfo.setLowLinkValue
  dsimp only
  split_ifs <;> rfl

theorem setLowLink_crtIndex (h : sccInfo T) (v n : T) :
    (h.setLowLink v n).crtIndex = h.crtIndex := by
  unfold sccInfo.setLowLink sccInfo.setLowLinkValue
  dsimp only
  split_ifs <;> rfl

theorem setLowLink_lowlink_ne (h : sccInfo T) (v n x : T) (hx : x ≠ v) :
    (h.setLowLink v n).lowlink x = h.lowlink x := by
  unfold sccInfo.setLowLink sccInfo.setLowLinkValue
  dsimp only
  split_ifs <;> simp [hx]

theorem setLowLink_low (h : sccInfo T) (v n x : T) :
    low (h.setLowLink v n) x = if x = v then min (low h v) (low h n) else low h x := by
  unfold low sccInfo.setLowLink sccInfo.setLowLinkValue
  dsimp only
  by_cases hlt : sccInfo.get h.lowlink n < sccInfo.get h.lowlink v
  · rw [if_pos hlt]
    by_cases hx : x = v
    · subst hx
      simp only [if_true, sccInfo.get, Option.getD_some]
      simp only [sccInfo.get] at hlt
      rw [Nat.min_def]
      split_ifs with h1
      · omega
      · rfl
    · simp only [hx, if_false, sccInfo.get]
  · rw [if_neg hlt]
    by_cases hx : x = v
    · subst hx
      simp only [if_true]
      rw [Nat.min_def]
      split_ifs with h1
      · rfl
      · omega
    · simp only [hx, if_false]

theorem setLowLink_idx (h : sccInfo T) (v n x : T) : idx (h.setLowLink v n) x = idx h x := by
  unfold idx; rw [setLowLink_index]

theorem setLowLink_vis (h : sccInfo T) (v n x : T) : Vis (h.setLowLink v n) x ↔ Vis h x := by
  unfold Vis; rw [setLowLink_index]


theorem setLowLink_noop (h : sccInfo T) (v n : T) (hle : low h v ≤ low h n) :
    h.setLowLink v n = h := by
  unfold sccInfo.setLowLink
  dsimp only
  unfold low at hle
  rw [if_neg (by omega)]

theorem SccInv.setLowLink {g : CallGraph T} {h : sccInfo T} {out : List T}
    (hinv : SccInv g h out) {v n : T} (hn : n ∈ h.stack) (hvn : g.Reach v n) :
    SccInv g (h.setLowLink v n) out := by
  refine ⟨?_, ?_, ?_, ?_, ?_, ?_, ?_, hinv.sccs⟩
  · intro x hx
    rw [setLowLink_idx, setLowLink_crtIndex]
    exact hinv.idx_lt x ((setLowLink_vis h v n x).1 hx)
  · rw [setLowLink_stack]
    simpa only [setLowLink_idx] using hinv.sorted
  · intro x
    rw [setLowLink_stack, setLowLink_onStack]
    exact hinv.onStack_iff x
  · intro x
    rw [setLowLink_stack, setLowLink_vis]
    exact hinv.vis_iff x
  · intro x
    rw [setLowLink_stack]
    exact hinv.disj x
  · intro x hx y hy hxy
    rw [setLowLink_stack] at hx hy
    rw [setLowLink_idx, setLowLink_idx] at hxy
    exact hinv.reach_up x hx y hy hxy
  · intro y hy
    rw [setLowLink_stack] at hy ⊢
    obtain ⟨hle, z, hz, hzi, hzr⟩ := hinv.low_ok y hy
    rw [setLowLink_low, setLowLink_idx]
    by_cases hyv : y = v
    · subst hyv
      simp only [if_true]
      refine ⟨le_trans (Nat.min_le_left _ _) hle, ?_⟩
      by_cases hmin : low h y ≤ low h n
      · rw [Nat.min_eq_left hmin]
        exact ⟨z, hz, by rw [setLowLink_idx]; exact hzi, hzr⟩
      · rw [Nat.min_eq_right (by omega)]
        obtain ⟨_, z1, hz1, hzi1, hzr1⟩ := hinv.low_ok n hn
        exact ⟨z1, hz1, by rw [setLowLink_idx]; exact hzi1, hvn.trans hzr1⟩
    · simp only [hyv, if_false]
      exact ⟨hle, z, hz, by rw [setLowLink_idx]; exact hzi, hzr⟩

theorem strongConnect_succ (g : CallGraph T) (fuel : Nat) (node : T)
    (st : sccInfo T × List T) :
    g.strongConnect (fuel + 1) node st =
      match omFind g.out_edges node with
      | none => none
      | some nexts =>
        match forEachM (sccEdge (g.strongConnect fuel) node) nexts
            (false, enter st.1 node, st.2) with
        | none => none
        | some st4 =>
          if sccInfo.get st4.2.1.lowlink node = sccInfo.get st4.2.1.index node then
            popScc node st4.2.1.stack st4
          else some st4 := by
  rw [strongConnect]

theorem enter_fields (h : sccInfo T) (v : T) (hv : ¬ Vis h v) :
    (enter h v).crtIndex = h.crtIndex + 1 ∧ (enter h v).stack = v :: h.stack ∧
    (enter h v).onStack = insert v h.onStack ∧
    (enter h v).index = (fun x => if x = v then some h.crtIndex else h.index x) ∧
    (enter h v).lowlink = (fun x => if x = v then some h.crtIndex else h.lowlink x) := by
  have hnone : h.index v = none := by
    unfold Vis at hv
    simpa using hv
  simp [enter, sccInfo.emplaceIndex, hnone, sccInfo.setLowLinkValue, sccInfo.push]


theorem enter_idx (h : sccInfo T) (v : T) (hv : ¬ Vis h v) (x : T) :
    idx (enter h v) x = if x = v then h.crtIndex else idx h x := by
  unfold idx
  rw [(enter_fields h v hv).2.2.2.1]
  by_cases hx : x = v <;> simp [hx, sccInfo.get]

theorem enter_low (h : sccInfo T) (v : T) (hv : ¬ Vis h v) (x : T) :
    low (enter h v) x = if x = v then h.crtIndex else low h x := by
  unfold low
  rw [(enter_fields h v hv).2.2.2.2]
  by_cases hx : x = v <;> simp [hx, sccInfo.get]

theorem enter_vis (h : sccInfo T) (v : T) (hv : ¬ Vis h v) (x : T) :
    Vis (enter h v) x ↔ x = v ∨ Vis h x := by
  unfold Vis
  rw [(enter_fields h v hv).2.2.2.1]
  by_cases hx : x = v <;> simp [hx]

theorem SccInv.stack_vis {g : CallGraph T} {h : sccInfo T} {out : List T}
    (hinv : SccInv g h out) {x : T} (hx : x ∈ h.stack) : Vis h x :=
  (hinv.vis_iff x).2 (Or.inl hx)

theorem SccInv.enter {g : CallGraph T} {h : sccInfo T} {out : List T}
    (hinv : SccInv g h out) {v : T} (hv : ¬ Vis h v) (hreach : ∀ y ∈ h.stack, g.Reach y v) :
    SccInv g (enter h v) out := by
  obtain ⟨hcrt, hstack, hon, -, -⟩ := enter_fields h v hv
  have hne : ∀ x ∈ h.stack, x ≠ v := fun x hx hxv => hv (hxv ▸ hinv.stack_vis hx)
  refine ⟨?_, ?_, ?_, ?_, ?_, ?_, ?_, hinv.sccs⟩
  · intro x hx
    rw [enter_idx h v hv, hcrt]
    by_cases hxv : x = v
    · simp [hxv]
    · simp only [hxv, if_false]
      have := hinv.idx_lt x (((enter_vis h v hv x).1 hx).resolve_left hxv)
      omega
  · rw [hstack, List.pairwise_cons]
    constructor
    · intro y hy
      rw [enter_idx h v hv, enter_idx h v hv]
      simp only [hne y hy, if_false, if_true]
      exact hinv.idx_lt y (hinv.stack_vis hy)
    · refine hinv.sorted.imp_of_mem ?_
      intro a b ha hb hab
      rw [enter_idx h v hv, enter_idx h v hv]
      simpa only [hne a ha, hne b hb, if_false] using hab
  · intro x
    rw [hon, hstack, Finset.mem_insert, List.mem_cons, hinv.onStack_iff]
  · intro x
    rw [enter_vis h v hv, hstack, List.mem_cons, hinv.vis_iff, or_assoc]
  · intro x hx
    rw [hstack, List.mem_cons] at hx
    rcases hx with hx | hx
    · intro ho
      exact hv (hx ▸ (hinv.vis_iff x).2 (Or.inr ho))
    · exact hinv.disj x hx
  · intro x hx y hy hxy
    rw [hstack, List.mem_cons] at hx hy
    rw [enter_idx h v hv, enter_idx h v hv] at hxy
    rcases hy with hy | hy
    · subst hy
      rcases hx with hx | hx
      · exact hx ▸ Relation.ReflTransGen.refl
      · exact hreach x hx
    · rcases hx with hx | hx
      · subst hx
        simp only [if_true, hne y hy, if_false] at hxy
        have := hinv.idx_lt y (hinv.stack_vis hy)
        omega
      · simp only [hne x hx, hne y hy, if_false] at hxy
        exact hinv.reach_up x hx y hy hxy
  · intro y hy
    rw [hstack, List.mem_cons] at hy
    rw [enter_low h v hv, enter_idx h v hv]
    rcases hy with hy | hy
    · subst hy
      simp only [if_true, le_refl, true_and]
      exact ⟨y, by rw [hstack]; simp, by rw [enter_idx h y hv]; simp,
        Relation.ReflTransGen.refl⟩
    · simp only [hne y hy, if_false]
      obtain ⟨hle, z, hz, hzi, hzr⟩ := hinv.low_ok y hy
      refine ⟨hle, z, by rw [hstack]; exact List.mem_cons_of_mem _ hz, ?_, hzr⟩
      rw [enter_idx h v hv]
      simpa only [hne z hz, if_false] using hzi

theorem SccLoop.init {g : CallGraph T} {h : sccInfo T} {out : List T}
    (hinv : SccInv g h out) {v : T} (hv : ¬ Vis h v) (hreach : ∀ y ∈ h.stack, g.Reach y v) :
    SccLoop g v h out [] (false, enter h v, out) := by
  obtain ⟨hcrt, hstack, hon, hindex, hlow⟩ := enter_fields h v hv
  refine ⟨hinv.enter hv hreach, ⟨?_, ?_, ?_⟩, ⟨[], by simp, by simp⟩, ?_,
    ⟨[], by simp [hstack], by simp [OpenPart]⟩, by simp, by simp⟩
  · intro x hx
    have hxv : x ≠ v := fun hxv => hv (hxv ▸ hx)
    show (enter h v).index x = h.index x
    rw [hindex]
    simp [hxv]
  · intro x hx
    have hxv : x ≠ v := fun hxv => hv (hxv ▸ hx)
    show (enter h v).lowlink x = h.lowlink x
    rw [hlow]
    simp [hxv]
  · intro x hx hx1
    have hxv : x = v := ((enter_vis h v hv x).1 hx1).resolve_right hx
    subst hxv
    show g.Reach x x ∧ h.crtIndex ≤ idx (enter h x) x
    rw [enter_idx h x hv]
    simp [Reach, Relation.ReflTransGen.refl]
  · show (enter h v).index v = some h.crtIndex
    rw [hindex]
    simp

/-! ### The loop over the callees -/

theorem FlagOk.concat {g : CallGraph T} {l1 l2 : Bool} {out0 out1 out2 : List T}
    (h1 : FlagOk g l1 out0 out1) (h2 : FlagOk g l2 out1 out2) (hs : SccList g out1)
    (hnd : out2.Nodup) : FlagOk g (l1 || l2) out0 out2 := by
  obtain ⟨n1, e1, f1⟩ := h1
  obtain ⟨n2, e2, f2⟩ := h2
  refine ⟨n1 ++ n2, by rw [e2, e1, List.append_assoc], ?_⟩
  have hdisj : ∀ x, x ∈ out1 → x ∉ n2 := by
    intro x hx1 hx2
    rw [e2] at hnd
    exact (List.nodup_append.1 hnd).2.2 hx1 hx2
  have hn1 : ∀ x, x ∈ n1 → x ∈ out1 := fun x hx => by rw [e1]; exact List.mem_append_right _ hx
  rw [Bool.or_eq_true, f1, f2]
  constructor
  · rintro (⟨a, ha, b, hb, hab⟩ | ⟨a, ha, b, hb, hab⟩)
    · exact ⟨a, List.mem_append_left _ ha, b, List.mem_append_left _ hb, hab⟩
    · exact ⟨a, List.mem_append_right _ ha, b, List.mem_append_right _ hb, hab⟩
  · rintro ⟨a, ha, b, hb, hne, hscc⟩
    rcases List.mem_append.1 ha with ha | ha <;> rcases List.mem_append.1 hb with hb | hb
    · exact Or.inl ⟨a, ha, b, hb, hne, hscc⟩
    · exact absurd hb (hdisj b (hs.reach_closed (hn1 a ha) hscc.1))
    · exact absurd ha (hdisj a (hs.reach_closed (hn1 b hb) hscc.2))
    · exact Or.inr ⟨a, ha, b, hb, hne, hscc⟩

theorem SccLoopB.v_mem {g : CallGraph T} {v : T} {h0 : sccInfo T} {out0 done : List T}
    {b : Nat} {st : Bool × sccInfo T × List T} (hl : SccLoopB g v h0 out0 done b st) :
    v ∈ st.2.1.stack := by
  obtain ⟨np, hst, -⟩ := hl.stack
  rw [hst]
  simp

theorem SccLoopB.s0_sub {g : CallGraph T} {v : T} {h0 : sccInfo T} {out0 done : List T}
    {b : Nat} {st : Bool × sccInfo T × List T} (hl : SccLoopB g v h0 out0 done b st) {z : T}
    (hz : z ∈ h0.stack) : z ∈ st.2.1.stack := by
  obtain ⟨np, hst, -⟩ := hl.stack
  rw [hst]
  simp [hz]

theorem SccLoopB.reach_v {g : CallGraph T} {v : T} {h0 : sccInfo T} {out0 done : List T}
    {b : Nat} {st : Bool × sccInfo T × List T} (hl : SccLoopB g v h0 out0 done b st)
    (hpre : ∀ y ∈ h0.stack, g.Reach y v) : ∀ y ∈ st.2.1.stack, g.Reach y v := by
  obtain ⟨np, hst, hop⟩ := hl.stack
  intro y hy
  rw [hst, List.mem_append, List.mem_cons] at hy
  rcases hy with hy | hy | hy
  · exact hop.1 y hy
  · exact hy ▸ Relation.ReflTransGen.refl
  · exact hpre y hy

theorem SccLoopB.vis_v {g : CallGraph T} {v : T} {h0 : sccInfo T} {out0 done : List T}
    {b : Nat} {st : Bool × sccInfo T × List T} (hl : SccLoopB g v h0 out0 done b st) :
    Vis st.2.1 v := by
  unfold Vis
  rw [hl.idx_v]
  simp

theorem SccExt.vis {g : CallGraph T} {v : T} {h0 h : sccInfo T} (he : SccExt g v h0 h)
    {x : T} (hx : Vis h0 x) : Vis h x := by
  unfold Vis at hx ⊢
  rw [he.index_keep x hx]
  exact hx

theorem SccExt.idx_eq {g : CallGraph T} {v : T} {h0 h : sccInfo T} (he : SccExt g v h0 h)
    {x : T} (hx : Vis h0 x) : idx h x = idx h0 x := by
  unfold idx sccInfo.get
  rw [he.index_keep x hx]

theorem SccExt.low_eq {g : CallGraph T} {v : T} {h0 h : sccInfo T} (he : SccExt g v h0 h)
    {x : T} (hx : Vis h0 x) : low h x = low h0 x := by
  unfold low sccInfo.get
  rw [he.low_keep x hx]

theorem SccLoopB.mono {g : CallGraph T} {v : T} {h0 : sccInfo T} {out0 done : List T}
    {b b1 : Nat} {st : Bool × sccInfo T × List T} (hl : SccLoopB g v h0 out0 done b st)
    (hle : b1 ≤ b) : SccLoopB g v h0 out0 done b1 st := by
  obtain ⟨np, hst, hop⟩ := hl.stack
  exact ⟨hl.inv, hl.ext, hl.flag, hl.idx_v,
    ⟨np, hst, hop.1, hop.2.1, fun y hy z hz hyz => le_trans hle (hop.2.2 y hy z hz hyz)⟩,
    hl.done_vis, fun z hz hz0 => le_trans hle (hl.done_low z hz hz0)⟩

theorem SccLoopB.after_setLowLink {g : CallGraph T} {v : T} {h0 : sccInfo T} {out0 done : List T}
    {loop : Bool} {h : sccInfo T} {out : List T} {n : T}
    (hl : SccLoopB g v h0 out0 done (min (low h v) (low h n)) (loop, h, out))
    (hv0 : ¬ Vis h0 v) (hn : n ∈ h.stack) (hvn : g.Reach v n) :
    SccLoop g v h0 out0 done (loop, h.setLowLink v n, out) := by
  have hlow : low (h.setLowLink v n) v = min (low h v) (low h n) := by
    rw [setLowLink_low]; simp
  have hne : ∀ x, Vis h0 x → x ≠ v := fun x hx hxv => hv0 (hxv ▸ hx)
  obtain ⟨np, hst, hop⟩ := hl.stack
  unfold SccLoop
  refine ⟨hl.inv.setLowLink hn hvn, ⟨?_, ?_, ?_⟩, hl.flag, ?_, ⟨np, ?_, ?_, ?_, ?_⟩, ?_, ?_⟩
  · intro x hx
    show (h.setLowLink v n).index x = h0.index x
    rw [setLowLink_index]
    exact hl.ext.index_keep x hx
  · intro x hx
    show (h.setLowLink v n).lowlink x = h0.lowlink x
    rw [setLowLink_lowlink_ne h v n x (hne x hx)]
    exact hl.ext.low_keep x hx
  · intro x hx hx1
    show g.Reach v x ∧ h0.crtIndex ≤ idx (h.setLowLink v n) x
    rw [setLowLink_idx]
    exact hl.ext.new_reach x hx ((setLowLink_vis h v n x).1 hx1)
  · show (h.setLowLink v n).index v = some h0.crtIndex
    rw [setLowLink_index]
    exact hl.idx_v
  · show (h.setLowLink v n).stack = np ++ v :: h0.stack
    rw [setLowLink_stack]
    exact hst
  · exact hop.1
  · intro y hy z hyz
    exact (setLowLink_vis h v n z).2 (hop.2.1 y hy z hyz)
  · intro y hy z hz hyz
    show low (h.setLowLink v n) v ≤ idx (h.setLowLink v n) z
    rw [setLowLink_idx, hlow]
    exact hop.2.2 y hy z hz hyz
  · intro z hz
    exact (setLowLink_vis h v n z).2 (hl.done_vis z hz)
  · intro z hz hz0
    show low (h.setLowLink v n) v ≤ idx (h.setLowLink v n) z
    rw [setLowLink_idx, hlow]
    exact hl.done_low z hz hz0

theorem SccLoopB.snoc_done {g : CallGraph T} {v : T} {h0 : sccInfo T} {out0 done : List T}
    {b : Nat} {st : Bool × sccInfo T × List T} (hl : SccLoopB g v h0 out0 done b st) {next : T}
    (hvis : Vis st.2.1 next) (hlow : next ∈ h0.stack → b ≤ idx st.2.1 next) :
    SccLoopB g v h0 out0 (done ++ [next]) b st := by
  refine ⟨hl.inv, hl.ext, hl.flag, hl.idx_v, hl.stack, ?_, ?_⟩
  · intro z hz
    rcases List.mem_append.1 hz with hz | hz
    · exact hl.done_vis z hz
    · simp only [List.mem_singleton] at hz
      exact hz ▸ hvis
  · intro z hz hz0
    rcases List.mem_append.1 hz with hz | hz
    · exact hl.done_low z hz hz0
    · simp only [List.mem_singleton] at hz
      subst hz
      exact hlow hz0


theorem SccInv.stack_nodup {g : CallGraph T} {h : sccInfo T} {out : List T}
    (hinv : SccInv g h out) : h.stack.Nodup := by
  refine hinv.sorted.imp ?_
  intro a b hab heq
  rw [heq] at hab
  exact lt_irrefl _ hab

theorem SccLoop.after_call {g : CallGraph T} {v : T} {h0 : sccInfo T} {out0 done : List T}
    {loop : Bool} {h : sccInfo T} {out : List T}
    (hl : SccLoop g v h0 out0 done (loop, h, out)) (hpre : ∀ y ∈ h0.stack, g.Reach y v)
    {next : T} (hedge : g.edge v next) (hnv : ¬ Vis h next)
    {r : Bool × sccInfo T × List T} (hp : SccPost g next h out r) :
    SccLoopB g v h0 out0 (done ++ [next]) (min (low r.2.1 v) (low r.2.1 next))
        (loop || r.1, r.2.1, r.2.2) ∧
      (next ∈ r.2.1.stack ∨ low r.2.1 v ≤ low r.2.1 next) := by
  have hvis_v : Vis h v := hl.vis_v
  have hlow_v : low r.2.1 v = low h v := hp.ext.low_eq hvis_v
  have hidx_v : idx h v = h0.crtIndex := idx_of_index hl.idx_v
  have hcrt : h0.crtIndex < h.crtIndex := hidx_v ▸ hl.inv.idx_lt v hvis_v
  have hnext0 : next ∉ h0.stack := fun hz => hnv (hl.inv.stack_vis (hl.s0_sub hz))
  have hidx_next : idx r.2.1 next = h.crtIndex := idx_of_index hp.idx_v
  have hvis_next : Vis r.2.1 next := by
    unfold Vis; rw [hp.idx_v]; simp
  have hlowle : low h v ≤ idx h v := (hl.inv.low_ok v hl.v_mem).1
  obtain ⟨np, hst, hop⟩ := hl.stack
  have hs0vis : ∀ z ∈ h0.stack, Vis h z := fun z hz => hl.inv.stack_vis (hl.s0_sub hz)
  have hminle : min (low r.2.1 v) (low r.2.1 next) ≤ low h v := by
    rw [hlow_v]; exact Nat.min_le_left _ _
  have hstackcase : (∃ np1, r.2.1.stack = np1 ++ v :: h0.stack ∧
      OpenPart g v h0.stack r.2.1 np1 (min (low r.2.1 v) (low r.2.1 next))) ∧
      (next ∈ r.2.1.stack ∨ low r.2.1 v ≤ low r.2.1 next) := by
    rcases hp.stack with ⟨hs, -, hlo⟩ | ⟨np1, hs, hmem, hop1, hlt⟩
    · refine ⟨⟨np, by rw [hs]; exact hst, hop.1,
        fun y hy z hyz => hp.ext.vis (hop.2.1 y hy z hyz), ?_⟩, Or.inr ?_⟩
      · intro y hy z hz hyz
        rw [hp.ext.idx_eq (hs0vis z hz)]
        exact le_trans hminle (hop.2.2 y hy z hz hyz)
      · rw [hlow_v, hlo, hidx_next]
        omega
    · have hnext_mem : next ∈ r.2.1.stack := by
        rw [hs]; exact List.mem_append_left _ hmem
      have hreach : g.Reach next v := by
        obtain ⟨-, z, hz, hzi, hzr⟩ := hp.inv.low_ok next hnext_mem
        have hzlt : idx r.2.1 z < h.crtIndex := by rw [hzi, ← hidx_next]; exact hlt
        rw [hs, List.mem_append] at hz
        rcases hz with hz | hz
        · exfalso
          have hnvz : ¬ Vis h z := by
            intro hvz
            rcases (hl.inv.vis_iff z).1 hvz with h1 | h1
            · have hnd := hp.inv.stack_nodup
              rw [hs] at hnd
              exact (List.nodup_append.1 hnd).2.2 hz h1
            · obtain ⟨newout, hno, -⟩ := hp.flag
              have h2 : z ∈ r.2.2 := by rw [hno]; exact List.mem_append_left _ h1
              exact hp.inv.disj z (by rw [hs]; exact List.mem_append_left _ hz) h2
          have hz2 : Vis r.2.1 z :=
            hp.inv.stack_vis (by rw [hs]; exact List.mem_append_left _ hz)
          have := (hp.ext.new_reach z hnvz hz2).2
          omega
        · exact hzr.trans (SccLoopB.reach_v hl hpre z hz)
      refine ⟨⟨np1 ++ np, by rw [hs, hst, List.append_assoc], ?_, ?_, ?_⟩, Or.inl hnext_mem⟩
      · intro y hy
        rcases List.mem_append.1 hy with hy | hy
        · exact (hop1.1 y hy).trans hreach
        · exact hop.1 y hy
      · intro y hy z hyz
        rcases List.mem_append.1 hy with hy | hy
        · exact hop1.2.1 y hy z hyz
        · exact hp.ext.vis (hop.2.1 y hy z hyz)
      · intro y hy z hz hyz
        rcases List.mem_append.1 hy with hy | hy
        · have hzs : z ∈ h.stack := SccLoopB.s0_sub hl hz
          exact le_trans (Nat.min_le_right _ _) (hop1.2.2 y hy z hzs hyz)
        · rw [hp.ext.idx_eq (hs0vis z hz)]
          exact le_trans hminle (hop.2.2 y hy z hz hyz)
  refine ⟨⟨hp.inv, ⟨?_, ?_, ?_⟩, ?_, ?_, hstackcase.1, ?_, ?_⟩, hstackcase.2⟩
  · intro x hx
    show r.2.1.index x = h0.index x
    rw [hp.ext.index_keep x (hl.ext.vis hx)]
    exact hl.ext.index_keep x hx
  · intro x hx
    show r.2.1.lowlink x = h0.lowlink x
    rw [hp.ext.low_keep x (hl.ext.vis hx)]
    exact hl.ext.low_keep x hx
  · intro x hx hx1
    show g.Reach v x ∧ h0.crtIndex ≤ idx r.2.1 x
    by_cases hvx : Vis h x
    · rw [hp.ext.idx_eq hvx]
      exact hl.ext.new_reach x hx hvx
    · obtain ⟨h1, h2⟩ := hp.ext.new_reach x hvx hx1
      exact ⟨Relation.ReflTransGen.head hedge h1, by omega⟩
  · exact FlagOk.concat hl.flag hp.flag hl.inv.sccs hp.inv.sccs.nodup
  · show r.2.1.index v = some h0.crtIndex
    rw [hp.ext.index_keep v hvis_v]
    exact hl.idx_v
  · intro z hz
    rcases List.mem_append.1 hz with hz | hz
    · exact hp.ext.vis (hl.done_vis z hz)
    · simp only [List.mem_singleton] at hz
      exact hz ▸ hvis_next
  · intro z hz hz0
    rcases List.mem_append.1 hz with hz | hz
    · show min (low r.2.1 v) (low r.2.1 next) ≤ idx r.2.1 z
      rw [hp.ext.idx_eq (hs0vis z hz0)]
      exact le_trans hminle (hl.done_low z hz hz0)
    · simp only [List.mem_singleton] at hz
      exact absurd (hz ▸ hz0) hnext0


theorem SccLoop.edge_step {g : CallGraph T} {v : T} {h0 : sccInfo T} {out0 done : List T}
    {st : Bool × sccInfo T × List T} (hl : SccLoop g v h0 out0 done st)
    (hpre : ∀ y ∈ h0.stack, g.Reach y v) (hv0 : ¬ Vis h0 v) {next : T}
    (hedge : g.edge v next)
    {rec : T → sccInfo T × List T → Option (Bool × sccInfo T × List T)}
    (hrec : RecOk g v h0 rec next) :
    ∃ st1, sccEdge rec v next st = some st1 ∧ SccLoop g v h0 out0 (done ++ [next]) st1 := by
  obtain ⟨loop, h, out⟩ := st
  have hvn : g.Reach v next := Relation.ReflTransGen.single hedge
  unfold sccEdge
  by_cases hu : h.unknown next = true
  · have hnv : ¬ Vis h next := by
      unfold sccInfo.unknown at hu
      unfold Vis
      simpa using hu
    have hmono : ∀ x, x = v ∨ Vis h0 x → Vis h x := by
      rintro x (hx | hx)
      · exact hx ▸ SccLoopB.vis_v hl
      · exact hl.ext.vis hx
    obtain ⟨r, hr, hp⟩ := hrec h out hl.inv hnv
      (fun y hy => (SccLoopB.reach_v hl hpre y hy).trans hvn) hmono
    obtain ⟨hB, hcase⟩ := SccLoop.after_call hl hpre hedge hnv hp
    obtain ⟨l, h1, out1⟩ := r
    simp only [hu, if_true, hr]
    refine ⟨_, rfl, ?_⟩
    rcases hcase with hmem | hle
    · exact SccLoopB.after_setLowLink hB hv0 hmem hvn
    · simp only at hle hB
      rw [setLowLink_noop h1 v next hle]
      unfold SccLoop
      rw [Nat.min_eq_left hle] at hB
      exact hB
  · have hvis : Vis h next := by
      unfold sccInfo.unknown at hu
      unfold Vis
      intro hnone
      exact hu (by simp [hnone])
    simp only [hu, Bool.false_eq_true, if_false]
    by_cases hon : h.isOnStack next = true
    · have hmem : next ∈ h.stack := by
        unfold sccInfo.isOnStack at hon
        exact (hl.inv.onStack_iff next).1 (by simpa using hon)
      simp only [hon, if_true]
      refine ⟨_, rfl, ?_⟩
      have hB : SccLoopB g v h0 out0 (done ++ [next]) (min (low h v) (low h next))
          (loop, h, out) := by
        refine SccLoopB.snoc_done (SccLoopB.mono hl (Nat.min_le_left _ _)) hvis ?_
        intro _
        exact le_trans (Nat.min_le_right _ _) (hl.inv.low_ok next hmem).1
      exact SccLoopB.after_setLowLink hB hv0 hmem hvn
    · simp only [hon, Bool.false_eq_true, if_false]
      refine ⟨_, rfl, SccLoopB.snoc_done hl hvis ?_⟩
      intro hz
      exfalso
      apply hon
      unfold sccInfo.isOnStack
      simpa using (hl.inv.onStack_iff next).2 (SccLoopB.s0_sub hl hz)

theorem SccLoop.run {g : CallGraph T} {v : T} {h0 : sccInfo T} {out0 : List T}
    (hpre : ∀ y ∈ h0.stack, g.Reach y v) (hv0 : ¬ Vis h0 v)
    {rec : T → sccInfo T × List T → Option (Bool × sccInfo T × List T)} (todo : List T) :
    ∀ (done : List T) (st : Bool × sccInfo T × List T), SccLoop g v h0 out0 done st →
      (∀ next ∈ todo, g.edge v next ∧ RecOk g v h0 rec next) →
      ∃ st1, forEachM (sccEdge rec v) todo st = some st1 ∧
        SccLoop g v h0 out0 (done ++ todo) st1 := by
  induction todo with
  | nil =>
    intro done st hl _
    exact ⟨st, rfl, by simpa using hl⟩
  | cons next todo ih =>
    intro done st hl hall
    obtain ⟨hedge, hrec⟩ := hall next (by simp)
    obtain ⟨st1, e1, hl1⟩ := SccLoop.edge_step hl hpre hv0 hedge hrec
    obtain ⟨st2, e2, hl2⟩ := ih (done ++ [next]) st1 hl1
      (fun n hn => hall n (List.mem_cons_of_mem _ hn))
    refine ⟨st2, ?_, by simpa using hl2⟩
    simp only [forEachM, e1]
    exact e2


/-! ### Emitting a component -/

theorem popScc_spec (v : T) (s0 : List T) : ∀ (np : List T) (loop : Bool) (h : sccInfo T)
    (out : List T), v ∉ np →
    ∃ r, popScc v (np ++ v :: s0) (loop, h, out) = some r ∧
      r.2.1.stack = s0 ∧ r.2.1.index = h.index ∧ r.2.1.lowlink = h.lowlink ∧
      r.2.1.crtIndex = h.crtIndex ∧
      (∀ x, x ∈ r.2.1.onStack ↔ x ∈ h.onStack ∧ x ∉ np ∧ x ≠ v) ∧
      r.2.2 = out ++ (np ++ [v]) ∧ (r.1 = true ↔ loop = true ∨ np ≠ []) := by
  intro np
  induction np with
  | nil =>
    intro loop h out _
    refine ⟨_, by simp only [List.nil_append, popScc, if_true]; rfl, rfl, rfl, rfl, rfl, ?_,
      rfl, by simp⟩
    intro x
    simp only [Finset.mem_erase, List.not_mem_nil, not_false_eq_true, true_and]
    exact and_comm
  | cons m np ih =>
    intro loop h out hv
    have hmv : m ≠ v := fun hmv => hv (by simp [hmv])
    have hvnp : v ∉ np := fun hvnp => hv (List.mem_cons_of_mem _ hvnp)
    obtain ⟨r, hr, h1, h2, h3, h4, h5, h6, h7⟩ := ih true
      ({ h with stack := np ++ v :: s0, onStack := h.onStack.erase m } : sccInfo T)
      (out ++ [m]) hvnp
    refine ⟨r, ?_, h1, h2, h3, h4, ?_, ?_, ?_⟩
    · simp only [List.cons_append, popScc, hmv, if_false]
      exact hr
    · intro x
      rw [h5 x]
      simp only [Finset.mem_erase, List.mem_cons, not_or]
      tauto
    · rw [h6]
      simp
    · rw [h7]
      simp

theorem FlagOk.congr {g : CallGraph T} {l1 l2 : Bool} {out0 out : List T}
    (h : FlagOk g l1 out0 out) (hl : l2 = true ↔ l1 = true) : FlagOk g l2 out0 out := by
  obtain ⟨n, e, f⟩ := h
  exact ⟨n, e, hl.trans f⟩


theorem SccLoopB.parts {g : CallGraph T} {v : T} {h0 : sccInfo T} {out0 done : List T}
    {b : Nat} {st : Bool × sccInfo T × List T} (hl : SccLoopB g v h0 out0 done b st) :
    ∃ np, st.2.1.stack = np ++ v :: h0.stack ∧ OpenPart g v h0.stack st.2.1 np b ∧
      (∀ y ∈ np, idx st.2.1 v < idx st.2.1 y) ∧ (∀ z ∈ h0.stack, idx st.2.1 z < idx st.2.1 v) ∧
      v ∉ np ∧ (∀ z ∈ h0.stack, z ∉ np ∧ z ≠ v) ∧ (np ++ [v]).Nodup := by
  obtain ⟨np, hst, hop⟩ := hl.stack
  have hsorted := hl.inv.sorted
  have hnd := hl.inv.stack_nodup
  rw [hst] at hsorted hnd
  obtain ⟨-, hs2, hs3⟩ := List.pairwise_append.1 hsorted
  obtain ⟨hs4, -⟩ := List.pairwise_cons.1 hs2
  obtain ⟨hn1, hn2, hn3⟩ := List.nodup_append.1 hnd
  obtain ⟨hn4, -⟩ := List.nodup_cons.1 hn2
  have hvnp : v ∉ np := fun hv => hn3 hv (by simp)
  refine ⟨np, hst, hop, fun y hy => hs3 y hy v (by simp), hs4, hvnp, ?_, ?_⟩
  · intro z hz
    exact ⟨fun hznp => hn3 hznp (List.mem_cons_of_mem _ hz), fun hzv => hn4 (hzv ▸ hz)⟩
  · exact List.Nodup.append hn1 (by simp) (by simpa using hvnp)

theorem SccLoop.exit_keep {g : CallGraph T} {v : T} {h0 : sccInfo T} {out0 : List T}
    {st : Bool × sccInfo T × List T} (hl : SccLoop g v h0 out0 (g.callees v) st)
    (hlt : low st.2.1 v < idx st.2.1 v) : SccPost g v h0 out0 st := by
  obtain ⟨np, hst, hop⟩ := hl.stack
  refine ⟨hl.inv, hl.ext, hl.flag, hl.idx_v, Or.inr ⟨np ++ [v], by simp [hst], by simp,
    ⟨?_, ?_, ?_⟩, hlt⟩⟩
  · intro y hy
    rcases List.mem_append.1 hy with hy | hy
    · exact hop.1 y hy
    · simp only [List.mem_singleton] at hy
      exact hy ▸ Relation.ReflTransGen.refl
  · intro y hy z hyz
    rcases List.mem_append.1 hy with hy | hy
    · exact hop.2.1 y hy z hyz
    · simp only [List.mem_singleton] at hy
      subst hy
      exact hl.done_vis z hyz
  · intro y hy z hz hyz
    rcases List.mem_append.1 hy with hy | hy
    · exact hop.2.2 y hy z hz hyz
    · simp only [List.mem_singleton] at hy
      subst hy
      exact hl.done_low z hyz hz

/-- When `lowlink[v] = index[v]` at the end of the loop, the nodes on the stack from
`v` upwards have all their edges into themselves or into `out`. -/
theorem SccLoop.block_edges {g : CallGraph T} {v : T} {h0 : sccInfo T} {out0 : List T}
    {st : Bool × sccInfo T × List T} (hl : SccLoop g v h0 out0 (g.callees v) st)
    (heq : low st.2.1 v = idx st.2.1 v) {np : List T}
    (hst : st.2.1.stack = np ++ v :: h0.stack)
    (hop : OpenPart g v h0.stack st.2.1 np (low st.2.1 v))
    (hs0 : ∀ z ∈ h0.stack, idx st.2.1 z < idx st.2.1 v) :
    ∀ x ∈ np ++ [v], ∀ y, g.edge x y → y ∈ st.2.2 ∨ y ∈ np ++ [v] := by
  intro x hx y hxy
  have hvis : Vis st.2.1 y := by
    rcases List.mem_append.1 hx with hx | hx
    · exact hop.2.1 x hx y hxy
    · simp only [List.mem_singleton] at hx
      subst hx
      exact hl.done_vis y hxy
  rcases (hl.inv.vis_iff y).1 hvis with hy | hy
  · rw [hst, List.mem_append, List.mem_cons] at hy
    rcases hy with hy | hy | hy
    · exact Or.inr (List.mem_append_left _ hy)
    · exact Or.inr (by simp [hy])
    · exfalso
      have hb : low st.2.1 v ≤ idx st.2.1 y := by
        rcases List.mem_append.1 hx with hx | hx
        · exact hop.2.2 x hx y hy hxy
        · simp only [List.mem_singleton] at hx
          subst hx
          exact hl.done_low y hxy hy
      have := hs0 y hy
      omega
  · exact Or.inl hy


theorem SccLoop.exit_pop {g : CallGraph T} {v : T} {h0 : sccInfo T} {out0 : List T}
    {st : Bool × sccInfo T × List T} (hl : SccLoop g v h0 out0 (g.callees v) st)
    (heq : low st.2.1 v = idx st.2.1 v) :
    ∃ r, popScc v st.2.1.stack st = some r ∧ SccPost g v h0 out0 r := by
  obtain ⟨loop, h, out⟩ := st
  obtain ⟨np, hst, hop, hup, hs0, hvnp, hs0np, hndb⟩ := SccLoopB.parts hl
  simp only at hst hop hup hs0 heq
  obtain ⟨r, hr, r1, r2, r3, r4, r5, r6, r7⟩ := popScc_spec v h0.stack np loop h out hvnp
  have hinv : SccInv g h out := hl.inv
  have hidx : ∀ x, idx r.2.1 x = idx h x := fun x => by unfold idx; rw [r2]
  have hlow : ∀ x, low r.2.1 x = low h x := fun x => by unfold low; rw [r3]
  have hvis : ∀ x, Vis r.2.1 x ↔ Vis h x := fun x => by unfold Vis; rw [r2]
  have hvmem : v ∈ h.stack := by rw [hst]; simp
  have hbstack : ∀ x ∈ np ++ [v], x ∈ h.stack := by
    intro x hx
    rw [hst]
    rcases List.mem_append.1 hx with hx | hx
    · exact List.mem_append_left _ hx
    · simp only [List.mem_singleton] at hx
      simp [hx]
  have hs0stack : ∀ x ∈ h0.stack, x ∈ h.stack := by
    intro x hx
    rw [hst]
    simp [hx]
  have hblock := SccLoop.block_edges hl heq hst hop hs0
  simp only at hblock
  have hreachv : ∀ x ∈ np ++ [v], g.Reach x v := by
    intro x hx
    rcases List.mem_append.1 hx with hx | hx
    · exact hop.1 x hx
    · simp only [List.mem_singleton] at hx
      exact hx ▸ Relation.ReflTransGen.refl
  have hvreach : ∀ x ∈ np ++ [v], g.Reach v x := by
    intro x hx
    refine hinv.reach_up v hvmem x (hbstack x hx) ?_
    rcases List.mem_append.1 hx with hx | hx
    · exact le_of_lt (hup x hx)
    · simp only [List.mem_singleton] at hx
      rw [hx]
  have hdisj : ∀ a ∈ np ++ [v], a ∉ out := fun a ha => hinv.disj a (hbstack a ha)
  have hclosed : ∀ x y, g.Reach x y → (x ∈ out ∨ x ∈ np ++ [v]) → (y ∈ out ∨ y ∈ np ++ [v]) := by
    intro x y hxy hx
    induction hxy with
    | refl => exact hx
    | tail _ hbc ih =>
      rcases ih with h1 | h1
      · exact Or.inl (hinv.sccs.edge_closed _ h1 _ hbc)
      · exact hblock _ h1 _ hbc
  have hscc : ∀ a ∈ np ++ [v], ∀ b, b ∈ np ++ [v] ↔ g.SameScc a b := by
    intro a ha b
    constructor
    · intro hb
      exact ⟨(hreachv a ha).trans (hvreach b hb), (hreachv b hb).trans (hvreach a ha)⟩
    · intro hab
      rcases hclosed a b hab.1 (Or.inr ha) with h1 | h1
      · exact absurd (hinv.sccs.reach_closed h1 hab.2) (hdisj a ha)
      · exact h1
  have hsccs : SccList g (out ++ (np ++ [v])) :=
    SccList.snoc out _ hinv.sccs hscc hblock hndb hdisj
  have hmem_s0 : ∀ x, x ∈ h.stack ∧ x ∉ np ∧ x ≠ v ↔ x ∈ h0.stack := by
    intro x
    constructor
    · rintro ⟨h1, h2, h3⟩
      rw [hst, List.mem_append, List.mem_cons] at h1
      rcases h1 with h1 | h1 | h1
      · exact absurd h1 h2
      · exact absurd h1 h3
      · exact h1
    · intro hx
      exact ⟨hs0stack x hx, (hs0np x hx).1, (hs0np x hx).2⟩
  have hsorted0 : h0.stack.Pairwise (fun a b => idx h b < idx h a) := by
    have := hinv.sorted
    rw [hst] at this
    exact (List.pairwise_cons.1 (List.pairwise_append.1 this).2.1).2
  refine ⟨r, by rw [hst]; exact hr, ⟨?_, ?_, ?_, ?_, ?_, ?_, ?_, ?_⟩, ⟨?_, ?_, ?_⟩, ?_, ?_,
    Or.inl ⟨r1, by rw [r6]; simp, by rw [hlow, hidx]; exact heq⟩⟩
  · intro x hx
    rw [hidx, r4]
    exact hinv.idx_lt x ((hvis x).1 hx)
  · rw [r1]
    simpa only [hidx] using hsorted0
  · intro x
    rw [r5, r1, hinv.onStack_iff]
    exact hmem_s0 x
  · intro x
    rw [hvis, r1, r6, hinv.vis_iff, hst]
    simp only [List.mem_append, List.mem_cons, List.mem_singleton, List.not_mem_nil, or_false]
    tauto
  · intro x hx
    rw [r1] at hx
    rw [r6, List.mem_append, List.mem_append, List.mem_singleton]
    rintro (h1 | h1 | h1)
    · exact hinv.disj x (hs0stack x hx) h1
    · exact (hs0np x hx).1 h1
    · exact (hs0np x hx).2 h1
  · intro x hx y hy hxy
    rw [r1] at hx hy
    rw [hidx, hidx] at hxy
    exact hinv.reach_up x (hs0stack x hx) y (hs0stack y hy) hxy
  · intro y hy
    rw [r1] at hy ⊢
    rw [hlow, hidx]
    obtain ⟨hle, z, hz, hzi, hzr⟩ := hinv.low_ok y (hs0stack y hy)
    refine ⟨hle, z, ?_, by rw [hidx]; exact hzi, hzr⟩
    have hylt := hs0 y hy
    rw [hst, List.mem_append, List.mem_cons] at hz
    rcases hz with hz | hz | hz
    · have := hup z hz
      omega
    · rw [hz] at hzi
      omega
    · exact hz
  · rw [r6]
    exact hsccs
  · intro x hx
    show r.2.1.index x = h0.index x
    rw [r2]
    exact hl.ext.index_keep x hx
  · intro x hx
    show r.2.1.lowlink x = h0.lowlink x
    rw [r3]
    exact hl.ext.low_keep x hx
  · intro x hx hx1
    show g.Reach v x ∧ h0.crtIndex ≤ idx r.2.1 x
    rw [hidx]
    exact hl.ext.new_reach x hx ((hvis x).1 hx1)
  · have hf2 : FlagOk g (decide (np ≠ [])) out r.2.2 := by
      refine ⟨np ++ [v], r6, ?_⟩
      rw [decide_eq_true_iff]
      constructor
      · intro hne
        cases np with
        | nil => exact absurd rfl hne
        | cons m np1 =>
          have hm : m ∈ m :: np1 ++ [v] := by simp
          have hv : v ∈ m :: np1 ++ [v] := by simp
          refine ⟨m, hm, v, hv, ?_, (hscc m hm v).1 hv⟩
          intro hmv
          exact hvnp (by simp [hmv])
      · rintro ⟨a, ha, b, hb, hab, -⟩ hnil
        subst hnil
        simp only [List.nil_append, List.mem_singleton] at ha hb
        exact hab (ha.trans hb.symm)
    have hf := FlagOk.concat hl.flag hf2 hinv.sccs (by rw [r6]; exact hsccs.nodup)
    refine hf.congr ?_
    rw [r7, Bool.or_eq_true, decide_eq_true_iff]
  · show r.2.1.index v = some h0.crtIndex
    rw [r2]
    exact hl.idx_v

theorem SccLoop.exit {g : CallGraph T} {v : T} {h0 : sccInfo T} {out0 : List T}
    {st : Bool × sccInfo T × List T} (hl : SccLoop g v h0 out0 (g.callees v) st) :
    ∃ r, (if sccInfo.get st.2.1.lowlink v = sccInfo.get st.2.1.index v then
        popScc v st.2.1.stack st else some st) = some r ∧ SccPost g v h0 out0 r := by
  by_cases heq : sccInfo.get st.2.1.lowlink v = sccInfo.get st.2.1.index v
  · rw [if_pos heq]
    exact SccLoop.exit_pop hl heq
  · rw [if_neg heq]
    refine ⟨st, rfl, SccLoop.exit_keep hl ?_⟩
    have hle := (hl.inv.low_ok v (SccLoopB.v_mem hl)).1
    exact lt_of_le_of_ne hle heq


/-! ### The recursion -/

theorem countP_lt_of_imp {p q : T → Bool} (himp : ∀ x, p x = true → q x = true) {v : T}
    (hq : q v = true) (hp : ¬ p v = true) :
    ∀ l : List T, v ∈ l → l.countP p < l.countP q := by
  intro l
  induction l with
  | nil => simp
  | cons a l ih =>
    intro hv
    have hmono : l.countP p ≤ l.countP q := List.countP_mono_left (fun x _ hx => himp x hx)
    by_cases hav : a = v
    · subst hav
      rw [List.countP_cons_of_neg _ _ hp, List.countP_cons_of_pos _ _ hq]
      omega
    · have hvl : v ∈ l := by
        rcases List.mem_cons.1 hv with h1 | h1
        · exact absurd h1.symm hav
        · exact h1
      have := ih hvl
      by_cases hpa : p a = true
      · rw [List.countP_cons_of_pos _ _ hpa, List.countP_cons_of_pos _ _ (himp a hpa)]
        omega
      · rw [List.countP_cons_of_neg _ _ hpa]
        by_cases hqa : q a = true
        · rw [List.countP_cons_of_pos _ _ hqa]
          omega
        · rw [List.countP_cons_of_neg _ _ hqa]
          exact this

theorem unvisited_lt {g : CallGraph T} {h h1 : sccInfo T} {v : T} (hv : v ∈ g.nodes)
    (hnv : ¬ Vis h v) (hmono : ∀ x, x = v ∨ Vis h x → Vis h1 x) :
    unvisited g h1 < unvisited g h := by
  unfold unvisited
  refine countP_lt_of_imp ?_ ?_ ?_ g.nodes hv
  · intro x hx
    by_contra hcon
    have h2 : Vis h x := by
      unfold Vis
      intro hnone
      exact hcon (by simp [hnone])
    have h3 := hmono x (Or.inr h2)
    unfold Vis at h3
    simp only [Option.isNone_iff_eq_none] at hx
    exact h3 hx
  · unfold Vis at hnv
    simpa using hnv
  · have h3 := hmono v (Or.inl rfl)
    unfold Vis at h3
    simpa using h3

theorem strongConnect_spec {g : CallGraph T} (hwf : WF g) : ∀ (fuel : Nat) (v : T)
    (h : sccInfo T) (out : List T), SccInv g h out → ¬ Vis h v → v ∈ g.nodes →
    (∀ y ∈ h.stack, g.Reach y v) → unvisited g h ≤ fuel →
    ∃ r, g.strongConnect fuel v (h, out) = some r ∧ SccPost g v h out r := by
  intro fuel
  induction fuel with
  | zero =>
    intro v h out _ hnv hv _ hfuel
    exfalso
    have hpos : 0 < unvisited g h := by
      unfold unvisited
      rw [List.countP_pos_iff]
      refine ⟨v, hv, ?_⟩
      unfold Vis at hnv
      simpa using hnv
    omega
  | succ fuel ih =>
    intro v h out hinv hnv hv hpre hfuel
    obtain ⟨nexts, hf⟩ := Option.isSome_iff_exists.1 ((hwf.keys_out v).1 hv)
    have hcallees : g.callees v = nexts := by
      unfold callees
      rw [hf]
    have hrec : ∀ next ∈ nexts, g.edge v next ∧ RecOk g v h (g.strongConnect fuel) next := by
      intro next hnext
      have hedge : g.edge v next := by
        unfold edge
        rw [hcallees]
        exact hnext
      refine ⟨hedge, ?_⟩
      intro h1 out1 hinv1 hnv1 hpre1 hmono
      have hlt := unvisited_lt hv hnv hmono
      exact ih next h1 out1 hinv1 hnv1 (hwf.callee_mem v next hedge) hpre1 (by omega)
    obtain ⟨st4, e4, hl4⟩ := SccLoop.run hpre hnv nexts [] _ (SccLoop.init hinv hnv hpre) hrec
    rw [List.nil_append, ← hcallees] at hl4
    obtain ⟨r, hr, hp⟩ := SccLoop.exit hl4
    refine ⟨r, ?_, hp⟩
    rw [strongConnect_succ]
    simp only [hf, e4]
    exact hr

theorem sccEdge_mono {rec rec1 : T → sccInfo T × List T → Option (Bool × sccInfo T × List T)}
    (hrec : ∀ n s r, rec n s = some r → rec1 n s = some r) (v next : T)
    (st r : Bool × sccInfo T × List T) (h : sccEdge rec v next st = some r) :
    sccEdge rec1 v next st = some r := by
  unfold sccEdge at h ⊢
  by_cases hu : st.2.1.unknown next = true
  · simp only [hu, if_true] at h ⊢
    cases hr : rec next (st.2.1, st.2.2) with
    | none => simp [hr] at h
    | some r1 =>
      rw [hr] at h
      rw [hrec _ _ _ hr]
      exact h
  · simpa only [hu, if_false] using h

theorem strongConnect_mono (g : CallGraph T) (fuel : Nat) :
    ∀ (v : T) (s : sccInfo T × List T) (r : Bool × sccInfo T × List T),
      g.strongConnect fuel v s = some r → g.strongConnect (fuel + 1) v s = some r := by
  induction fuel with
  | zero => intro v s r h; simp [strongConnect] at h
  | succ n ih =>
    intro v s r h
    rw [strongConnect_succ] at h ⊢
    cases hf : omFind g.out_edges v with
    | none => simp [hf] at h
    | some nexts =>
      simp only [hf] at h ⊢
      cases he : forEachM (sccEdge (g.strongConnect n) v) nexts (false, enter s.1 v, s.2) with
      | none => simp [he] at h
      | some st4 =>
        simp only [he] at h
        rw [forEachM_mono (fun c s1 r1 h1 => sccEdge_mono ih v c s1 r1 h1) _ _ _ he]
        exact h

theorem strongConnect_mono_le (g : CallGraph T) {fuel fuel1 : Nat} (hle : fuel ≤ fuel1)
    (v : T) (s : sccInfo T × List T) (r : Bool × sccInfo T × List T)
    (h : g.strongConnect fuel v s = some r) : g.strongConnect fuel1 v s = some r := by
  induction hle with
  | refl => exact h
  | step _ ih => exact strongConnect_mono g _ v s r ih

theorem SccInv.new (g : CallGraph T) : SccInv g (sccInfo.new : sccInfo T) [] := by
  refine ⟨?_, ?_, ?_, ?_, ?_, ?_, ?_, SccList.nil⟩ <;> simp [sccInfo.new, Vis]

/-- The behaviour of `sccSort` on a well-formed graph, from an empty `out`. -/
theorem sccSort_spec {g : CallGraph T} (hwf : WF g) {start : T} (hs : start ∈ g.nodes) :
    ∃ l out, (∀ fuel, g.nodes.length ≤ fuel → g.sccSort fuel start [] = some (l, out)) ∧
      SccList g out ∧ (∀ x, x ∈ out ↔ g.Reach start x) ∧
      (l = true ↔ ∃ a ∈ out, ∃ b ∈ out, a ≠ b ∧ g.SameScc a b) := by
  have hnv : ¬ Vis (sccInfo.new : sccInfo T) start := by simp [Vis, sccInfo.new]
  have hfuel : unvisited g (sccInfo.new : sccInfo T) ≤ g.nodes.length := by
    unfold unvisited
    exact List.countP_le_length _
  obtain ⟨r, hr, hp⟩ := strongConnect_spec hwf g.nodes.length start sccInfo.new []
    (SccInv.new g) hnv hs (by simp [sccInfo.new]) hfuel
  have hidx : idx r.2.1 start = 0 := idx_of_index hp.idx_v
  have hstack : r.2.1.stack = [] := by
    rcases hp.stack with ⟨h1, -, -⟩ | ⟨np, -, -, -, hlt⟩
    · exact h1
    · omega
  have hstart : start ∈ r.2.2 := by
    have : Vis r.2.1 start := by unfold Vis; rw [hp.idx_v]; simp
    simpa [hstack] using (hp.inv.vis_iff start).1 this
  obtain ⟨newout, hno, hflag⟩ := hp.flag
  simp only [List.nil_append] at hno
  refine ⟨r.1, r.2.2, ?_, hp.inv.sccs, ?_, ?_⟩
  · intro fuel hle
    unfold sccSort
    rw [strongConnect_mono_le g hle _ _ _ hr]
    rfl
  · intro x
    constructor
    · intro hx
      have hvx : Vis r.2.1 x := (hp.inv.vis_iff x).2 (Or.inr hx)
      exact (hp.ext.new_reach x (by simp [Vis, sccInfo.new]) hvx).1
    · intro hx
      exact hp.inv.sccs.reach_closed hstart hx
  · rw [hno]
    exact hflag


/-! ### The initial contents of `out` -/

omit [LinearOrder T] in
theorem forEachM_map {σ : Type} (f : T → σ → Option σ) (φ : σ → σ)
    (hf : ∀ c s, f c (φ s) = (f c s).map φ) :
    ∀ (l : List T) (s : σ), forEachM f l (φ s) = (forEachM f l s).map φ := by
  intro l
  induction l with
  | nil => intro s; rfl
  | cons c cs ih =>
    intro s
    simp only [forEachM, hf]
    cases f c s with
    | none => rfl
    | some s1 => exact ih s1

theorem popScc_prepend (out0 : List T) (v : T) : ∀ (stk : List T) (st : Bool × sccInfo T × List T),
    popScc v stk (prepend out0 st) = (popScc v stk st).map (prepend out0) := by
  intro stk
  induction stk with
  | nil => intro st; rfl
  | cons m rest ih =>
    intro st
    obtain ⟨loop, h, out⟩ := st
    simp only [prepend, popScc]
    by_cases hm : m = v
    · simp [hm, prepend]
    · simp only [hm, if_false]
      have := ih (true, ({ h with stack := rest, onStack := h.onStack.erase m } : sccInfo T),
        out ++ [m])
      simp only [prepend] at this
      rw [List.append_assoc]
      exact this

theorem sccEdge_prepend (out0 : List T)
    {rec : T → sccInfo T × List T → Option (Bool × sccInfo T × List T)}
    (hrec : ∀ n h out, rec n (h, out0 ++ out) = (rec n (h, out)).map (prepend out0))
    (v next : T) (st : Bool × sccInfo T × List T) :
    sccEdge rec v next (prepend out0 st) = (sccEdge rec v next st).map (prepend out0) := by
  obtain ⟨loop, h, out⟩ := st
  unfold sccEdge
  simp only [prepend]
  by_cases hu : h.unknown next = true
  · simp only [hu, if_true, hrec]
    cases rec next (h, out) with
    | none => rfl
    | some r => rfl
  · simp only [hu, if_false]
    by_cases hon : h.isOnStack next = true
    · simp [hon, prepend]
    · simp [hon, prepend]

theorem strongConnect_prepend (g : CallGraph T) (out0 : List T) : ∀ (fuel : Nat) (v : T)
    (h : sccInfo T) (out : List T),
    g.strongConnect fuel v (h, out0 ++ out) =
      (g.strongConnect fuel v (h, out)).map (prepend out0) := by
  intro fuel
  induction fuel with
  | zero => intro v h out; rfl
  | succ n ih =>
    intro v h out
    rw [strongConnect_succ, strongConnect_succ]
    cases omFind g.out_edges v with
    | none => rfl
    | some nexts =>
      simp only
      have hloop := forEachM_map (sccEdge (g.strongConnect n) v) (prepend out0)
        (sccEdge_prepend out0 ih v) nexts (false, enter h v, out)
      simp only [prepend] at hloop
      rw [hloop]
      cases forEachM (sccEdge (g.strongConnect n) v) nexts (false, enter h v, out) with
      | none => rfl
      | some st4 =>
        simp only [Option.map_some']
        have h1 : (prepend out0 st4).2.1 = st4.2.1 := rfl
        rw [h1]
        by_cases heq : sccInfo.get st4.2.1.lowlink v = sccInfo.get st4.2.1.index v
        · rw [if_pos heq, if_pos heq]
          exact popScc_prepend out0 v _ st4
        · rw [if_neg heq, if_neg heq]
          rfl

theorem sccSort_prepend (g : CallGraph T) (fuel : Nat) (start : T) (out : List T) :
    g.sccSort fuel start out = (g.sccSort fuel start []).map (fun r => (r.1, out ++ r.2)) := by
  unfold sccSort
  have := strongConnect_prepend g out fuel start sccInfo.new []
  rw [List.append_nil] at this
  rw [this]
  cases g.strongConnect fuel start (sccInfo.new, []) with
  | none => rfl
  | some r => rfl


/-! ### The claims on `sccSort` -/

/-- Claim C2. For a graph built by `add` calls and a start node of the graph,
`sccSort(start, out)` returns (for every bound on the recursion depth from the number
of nodes on, and whatever `out` holds) a flag that is true if and only if two distinct
nodes reachable from `start` lie in one strongly connected component; in particular
the flag is false when no two distinct nodes are mutually reachable, that is when the
only cycles are self-loops. -/
theorem sccSort_cycle_flag (ops : List (Op T)) (start : T)
    (hs : start ∈ (build ops).nodes) :
    ∃ l, (∀ fuel out, (build ops).nodes.length ≤ fuel →
        ∃ out1, (build ops).sccSort fuel start out = some (l, out1)) ∧
      (l = true ↔ ∃ a b, (build ops).Reach start a ∧ (build ops).Reach start b ∧ a ≠ b ∧
        (build ops).SameScc a b) ∧
      ((∀ a b, (build ops).SameScc a b → a = b) → l = false) := by
  obtain ⟨l, out, hrun, -, hmem, hflag⟩ := sccSort_spec (build_wf ops) hs
  have hiff : l = true ↔ ∃ a b, (build ops).Reach start a ∧ (build ops).Reach start b ∧ a ≠ b ∧
      (build ops).SameScc a b := by
    rw [hflag]
    constructor
    · rintro ⟨a, ha, b, hb, hne, hscc⟩
      exact ⟨a, b, (hmem a).1 ha, (hmem b).1 hb, hne, hscc⟩
    · rintro ⟨a, b, ha, hb, hne, hscc⟩
      exact ⟨a, (hmem a).2 ha, b, (hmem b).2 hb, hne, hscc⟩
  refine ⟨l, ?_, hiff, ?_⟩
  · intro fuel out0 hle
    rw [sccSort_prepend, hrun fuel hle]
    exact ⟨out0 ++ out, rfl⟩
  · intro hself
    cases hl : l with
    | false => rfl
    | true =>
      obtain ⟨a, b, -, -, hne, hscc⟩ := hiff.1 hl
      exact absurd (hself a b hscc) hne

theorem sccSort_cycle_flag_witness :
    (1 : Nat) ∈ (build [Op.edge 1 2, Op.edge 2 3, Op.edge 3 1]).nodes ∧
    ∃ l, (∀ fuel out, (build [Op.edge 1 2, Op.edge 2 3, Op.edge 3 1]).nodes.length ≤ fuel →
        ∃ out1, (build [Op.edge 1 2, Op.edge 2 3, Op.edge 3 1]).sccSort fuel 1 out =
          some (l, out1)) ∧
      (l = true ↔ ∃ a b, (build [Op.edge 1 2, Op.edge 2 3, Op.edge 3 1]).Reach 1 a ∧
        (build [Op.edge 1 2, Op.edge 2 3, Op.edge 3 1]).Reach 1 b ∧ a ≠ b ∧
        (build [Op.edge 1 2, Op.edge 2 3, Op.edge 3 1]).SameScc a b) ∧
      ((∀ a b, (build [Op.edge 1 2, Op.edge 2 3, Op.edge 3 1]).SameScc a b → a = b) →
        l = false) :=
  ⟨by decide, sccSort_cycle_flag [Op.edge 1 2, Op.edge 2 3, Op.edge 3 1] 1 (by decide)⟩

/-- Claim C3. For a graph built by `add` calls and a start node of the graph,
`sccSort(start, out)` on an empty `out` returns (for every bound on the recursion depth
from the number of nodes on), and `out` then holds exactly the nodes reachable from
`start`, each once, the members of every strongly connected component forming one
segment `comp` of consecutive positions. -/
theorem sccSort_partition (ops : List (Op T)) (start : T)
    (hs : start ∈ (build ops).nodes) :
    ∃ l out, (∀ fuel, (build ops).nodes.length ≤ fuel →
        (build ops).sccSort fuel start [] = some (l, out)) ∧
      out.Nodup ∧ (∀ x, x ∈ out ↔ (build ops).Reach start x) ∧
      ∀ x ∈ out, ∃ pre comp post, out = pre ++ comp ++ post ∧
        ∀ y, y ∈ comp ↔ (build ops).SameScc x y := by
  obtain ⟨l, out, hrun, hsccs, hmem, -⟩ := sccSort_spec (build_wf ops) hs
  exact ⟨l, out, hrun, hsccs.nodup, hmem, hsccs.contiguous⟩

theorem sccSort_partition_witness :
    (1 : Nat) ∈ (build [Op.edge 1 2, Op.edge 2 3, Op.edge 3 1]).nodes ∧
    ∃ l out, (∀ fuel, (build [Op.edge 1 2, Op.edge 2 3, Op.edge 3 1]).nodes.length ≤ fuel →
        (build [Op.edge 1 2, Op.edge 2 3, Op.edge 3 1]).sccSort fuel 1 [] = some (l, out)) ∧
      out.Nodup ∧
      (∀ x, x ∈ out ↔ (build [Op.edge 1 2, Op.edge 2 3, Op.edge 3 1]).Reach 1 x) ∧
      ∀ x ∈ out, ∃ pre comp post, out = pre ++ comp ++ post ∧
        ∀ y, y ∈ comp ↔ (build [Op.edge 1 2, Op.edge 2 3, Op.edge 3 1]).SameScc x y :=
  ⟨by decide, sccSort_partition [Op.edge 1 2, Op.edge 2 3, Op.edge 3 1] 1 (by decide)⟩

/-- Claim C4. For a graph built by `add` calls and a start node of the graph, the
output of `sccSort(start, out)` on an empty `out` lists the components in reverse
topological order: when `u` and `w` are reachable from `start`, lie in different
components and `u → w` is an edge, every member of the component of `w` occurs before
every member of the component of `u`. -/
theorem sccSort_reverse_topological (ops : List (Op T)) (start : T)
    (hs : start ∈ (build ops).nodes) :
    ∃ l out, (∀ fuel, (build ops).nodes.length ≤ fuel →
        (build ops).sccSort fuel start [] = some (l, out)) ∧
      ∀ u w, (build ops).Reach start u → (build ops).Reach start w →
        ¬ (build ops).SameScc u w → (build ops).edge u w →
        ∀ u1 w1, (build ops).SameScc u u1 → (build ops).SameScc w w1 → Before out w1 u1 := by
  obtain ⟨l, out, hrun, hsccs, hmem, -⟩ := sccSort_spec (build_wf ops) hs
  refine ⟨l, out, hrun, ?_⟩
  intro u w hu _ hne huw u1 w1 hu1 hw1
  exact hsccs.ordered u ((hmem u).2 hu) w huw hne u1 w1 hu1 hw1

theorem sccSort_reverse_topological_witness :
    (1 : Nat) ∈ (build [Op.edge 1 2, Op.edge 2 3, Op.edge 3 2, Op.edge 2 4]).nodes ∧
    ∃ l out, (∀ fuel,
        (build [Op.edge 1 2, Op.edge 2 3, Op.edge 3 2, Op.edge 2 4]).nodes.length ≤ fuel →
        (build [Op.edge 1 2, Op.edge 2 3, Op.edge 3 2, Op.edge 2 4]).sccSort fuel 1 [] =
          some (l, out)) ∧
      ∀ u w, (build [Op.edge 1 2, Op.edge 2 3, Op.edge 3 2, Op.edge 2 4]).Reach 1 u →
        (build [Op.edge 1 2, Op.edge 2 3, Op.edge 3 2, Op.edge 2 4]).Reach 1 w →
        ¬ (build [Op.edge 1 2, Op.edge 2 3, Op.edge 3 2, Op.edge 2 4]).SameScc u w →
        (build [Op.edge 1 2, Op.edge 2 3, Op.edge 3 2, Op.edge 2 4]).edge u w →
        ∀ u1 w1, (build [Op.edge 1 2, Op.edge 2 3, Op.edge 3 2, Op.edge 2 4]).SameScc u u1 →
          (build [Op.edge 1 2, Op.edge 2 3, Op.edge 3 2, Op.edge 2 4]).SameScc w w1 →
          Before out w1 u1 :=
  ⟨by decide,
    sccSort_reverse_topological [Op.edge 1 2, Op.edge 2 3, Op.edge 3 2, Op.edge 2 4] 1
      (by decide)⟩

/-! ## Graph store: edges -/

theorem callers_add {g : CallGraph T} (hg : WF g) (n a : T) :
    (g.add n).callers a = g.callers a := by
  unfold add
  by_cases hn : n ∈ g.nodes
  · simp [hn]
  · simp only [hn, if_false, callers, omFind_omAssign]
    by_cases hna : n = a
    · subst hna
      have : omFind g.in_edges n = none := by
        have := (hg.keys_in n).not.1 hn
        simpa using this
      simp [this]
    · simp [hna]

theorem callers_addEdge {g : CallGraph T} (hg : WF g) (a b x : T) :
    (g.addEdge a b).callers x = if b = x then g.callers x ++ [a] else g.callers x := by
  have h1 := hg.add a
  have h2 := h1.add b
  have hmem : b ∈ ((g.add a).add b).nodes := by
    rw [mem_nodes_add]; simp
  have hkey := (h2.keys_in b).1 hmem
  have hc : ∀ y, ((g.add a).add b).callers y = g.callers y := fun y => by
    rw [callers_add h1, callers_add hg]
  simp only [addEdge, callers, omFind_omPushBack]
  by_cases hbx : b = x
  · subst hbx
    obtain ⟨cs, hcs⟩ := Option.isSome_iff_exists.1 hkey
    have := hc b
    simp only [callers, hcs] at this
    simp [hcs, ← this]
  · have := hc x
    simp only [callers] at this
    simp [hbx, this]

theorem EdgeSym.add_node {g : CallGraph T} (hg : WF g) (hs : EdgeSym g) (n : T) :
    EdgeSym (g.add n) := by
  intro a b
  rw [callees_add hg, callers_add hg]
  exact hs a b

theorem EdgeSym.add_edge {g : CallGraph T} (hg : WF g) (hs : EdgeSym g) (c d : T) :
    EdgeSym (g.addEdge c d) := by
  intro a b
  rw [callees_addEdge hg, callers_addEdge hg]
  have := hs a b
  by_cases hca : c = a <;> by_cases hdb : d = b
  · subst hca; subst hdb
    simp [List.count_append, this]
  · have hbd : ¬ b = d := fun h => hdb h.symm
    simp [hca, hdb, List.count_append, this, hbd]
  · have hac : ¬ a = c := fun h => hca h.symm
    simp [hca, hdb, List.count_append, this, hac]
  · simp [hca, hdb, this]

theorem wf_sym_foldl (ops : List (Op T)) : ∀ g : CallGraph T, WF g → EdgeSym g →
    WF (ops.foldl Op.apply g) ∧ EdgeSym (ops.foldl Op.apply g) := by
  induction ops with
  | nil => exact fun g hg hs => ⟨hg, hs⟩
  | cons op ops ih =>
    intro g hg hs
    cases op with
    | node n => exact ih _ (hg.add n) (hs.add_node hg n)
    | edge a b => exact ih _ (hg.addEdge a b) (hs.add_edge hg a b)

theorem build_sym (ops : List (Op T)) : EdgeSym (build ops) :=
  (wf_sym_foldl ops _ WF.empty (fun a b => by simp [callees, callers, CallGraph.empty, omFind])).2

/-- Claim C12. Edge symmetry: in every graph built from the empty graph by `add(n)` and
`add(a, b)` calls, `b` occurs in `out_edges[a]` exactly as often as `a` occurs in
`in_edges[b]`. -/
theorem edge_symmetry (ops : List (Op T)) (a b : T) :
    ((build ops).callees a).count b = ((build ops).callers b).count a :=
  build_sym ops a b

/-- Claim C13. Idempotent node add: `add(n)` on a graph that already holds `n` returns
the graph unchanged (same `nodes`, same maps with the same key order and sequences),
hence `add(n)` twice is `add(n)` once. -/
theorem add_idempotent (g : CallGraph T) (n : T) :
    (n ∈ g.nodes → g.add n = g) ∧ (g.add n).add n = g.add n := by
  have h1 : ∀ g1 : CallGraph T, n ∈ g1.nodes → g1.add n = g1 := by
    intro g1 h
    unfold add
    rw [if_pos h]
  exact ⟨h1 g, h1 _ ((mem_nodes_add g n n).2 (Or.inl rfl))⟩

theorem addEdgeTimes_wf {g : CallGraph T} (hg : WF g) (a b : T) :
    ∀ k, WF (addEdgeTimes g a b k) := by
  intro k
  induction k with
  | zero => exact hg
  | succ k ih => exact ih.addEdge a b

/-- Claim C14. Edge add appends and touches nothing else: on a graph built by `add`
calls, `add(a, b)` appends `b` to `out_edges[a]` and `a` to `in_edges[b]` (sequences of
new nodes count as empty, `a = b` and repeated pairs included), leaves the sequences
of every other node as they were, and `k` calls leave `k` parallel edges. -/
theorem addEdge_appends (ops : List (Op T)) (a b : T) :
    ((build ops).addEdge a b).callees a = (build ops).callees a ++ [b] ∧
    ((build ops).addEdge a b).callers b = (build ops).callers b ++ [a] ∧
    (∀ x, x ≠ a → ((build ops).addEdge a b).callees x = (build ops).callees x) ∧
    (∀ x, x ≠ b → ((build ops).addEdge a b).callers x = (build ops).callers x) ∧
    (∀ k, (addEdgeTimes (build ops) a b k).callees a =
        (build ops).callees a ++ List.replicate k b) ∧
    (∀ k, (addEdgeTimes (build ops) a b k).callers b =
        (build ops).callers b ++ List.replicate k a) := by
  have hg := build_wf ops
  refine ⟨by rw [callees_addEdge hg]; simp, by rw [callers_addEdge hg]; simp, ?_, ?_, ?_, ?_⟩
  · intro x hx
    rw [callees_addEdge hg, if_neg (fun h : a = x => hx h.symm)]
  · intro x hx
    rw [callers_addEdge hg, if_neg (fun h : b = x => hx h.symm)]
  · intro k
    induction k with
    | zero => simp [addEdgeTimes]
    | succ k ih =>
      rw [addEdgeTimes, callees_addEdge (addEdgeTimes_wf hg a b k), if_pos rfl, ih,
        List.replicate_succ', List.append_assoc]
  · intro k
    induction k with
    | zero => simp [addEdgeTimes]
    | succ k ih =>
      rw [addEdgeTimes, callers_addEdge (addEdgeTimes_wf hg a b k), if_pos rfl, ih,
        List.replicate_succ', List.append_assoc]


/-! ## Graph store: nodes and queries -/

theorem mem_nodes_foldl (ops : List (Op T)) : ∀ (g : CallGraph T) (x : T),
    x ∈ (ops.foldl Op.apply g).nodes ↔ x ∈ g.nodes ∨ ∃ op ∈ ops, mentions x op := by
  induction ops with
  | nil => intro g x; simp
  | cons op ops ih =>
    intro g x
    rw [List.foldl_cons, ih]
    cases op with
    | node n =>
      simp only [Op.apply, mem_nodes_add, List.mem_cons, exists_eq_or_imp, mentions]
      tauto
    | edge a b =>
      have hn : (g.addEdge a b).nodes = ((g.add a).add b).nodes := rfl
      simp only [Op.apply, hn, mem_nodes_add, List.mem_cons, exists_eq_or_imp, mentions]
      tauto

theorem mem_callees_foldl (ops : List (Op T)) : ∀ (g : CallGraph T), WF g → ∀ a b : T,
    b ∈ (ops.foldl Op.apply g).callees a ↔ b ∈ g.callees a ∨ Op.edge a b ∈ ops := by
  induction ops with
  | nil => intro g _ a b; simp
  | cons op ops ih =>
    intro g hg a b
    rw [List.foldl_cons]
    cases op with
    | node n =>
      show b ∈ (List.foldl Op.apply (g.add n) ops).callees a ↔ _
      rw [ih _ (hg.add n), callees_add hg]
      simp
    | edge c d =>
      show b ∈ (List.foldl Op.apply (g.addEdge c d) ops).callees a ↔ _
      rw [ih _ (hg.addEdge c d), callees_addEdge hg]
      by_cases hca : c = a
      · subst hca
        simp only [if_true, List.mem_append, List.mem_singleton, List.mem_cons, Op.edge.injEq,
          true_and]
        tauto
      · have hac : ¬ a = c := fun h => hca h.symm
        simp [hca, hac]

/-- Claim C15. Node/key invariant and `isCaller`: in every graph built from the empty
graph by `add` calls, a node is in `nodes` exactly when it is a key of `out_edges` and
a key of `in_edges`, and `isCaller(n)` is true exactly when some call added `n`, as a
node or as either endpoint of an edge (whether or not `n` has out-edges). -/
theorem nodes_keys_isCaller (ops : List (Op T)) (n : T) :
    (n ∈ (build ops).nodes ↔
      (omFind (build ops).out_edges n).isSome = true ∧
        (omFind (build ops).in_edges n).isSome = true) ∧
    ((build ops).isCaller n = true ↔ n ∈ (build ops).nodes) ∧
    ((build ops).isCaller n = true ↔ ∃ op ∈ ops, mentions n op) := by
  have hg := build_wf ops
  have hmem : n ∈ (build ops).nodes ↔ ∃ op ∈ ops, mentions n op := by
    unfold build
    rw [mem_nodes_foldl]
    simp [CallGraph.empty]
  refine ⟨?_, ?_, ?_⟩
  · constructor
    · intro h
      exact ⟨(hg.keys_out n).1 h, (hg.keys_in n).1 h⟩
    · intro h
      exact (hg.keys_out n).2 h.1
  · unfold isCaller
    exact (hg.keys_out n).symm
  · unfold isCaller
    rw [← hg.keys_out n]
    exact hmem

theorem isCallee_iff_callers (g : CallGraph T) (n : T) :
    g.isCallee n = true ↔ ∃ a, a ∈ g.callers n := by
  unfold isCallee callers
  cases omFind g.in_edges n with
  | none => simp
  | some cs =>
    cases cs with
    | nil => simp
    | cons c cs => simp

/-- Claim C16. `isCallee` reflects incoming edges: in every graph built from the empty
graph by `add` calls, `isCallee(n)` is true exactly when `n` occurs in `out_edges[a]`
for some `a`, that is when `add(a, n)` was called for some `a`; it is false for a
node that was never added. -/
theorem isCallee_iff_incoming (ops : List (Op T)) (n : T) :
    ((build ops).isCallee n = true ↔ ∃ a, n ∈ (build ops).callees a) ∧
    ((build ops).isCallee n = true ↔ ∃ a, Op.edge a n ∈ ops) ∧
    (n ∉ (build ops).nodes → (build ops).isCallee n = false) := by
  have hg := build_wf ops
  have h1 : (build ops).isCallee n = true ↔ ∃ a, n ∈ (build ops).callees a := by
    rw [isCallee_iff_callers]
    constructor
    · rintro ⟨a, ha⟩
      refine ⟨a, ?_⟩
      rw [← List.count_pos_iff, build_sym ops a n, List.count_pos_iff]
      exact ha
    · rintro ⟨a, ha⟩
      refine ⟨a, ?_⟩
      rw [← List.count_pos_iff, ← build_sym ops a n, List.count_pos_iff]
      exact ha
  have h2 : ∀ a, n ∈ (build ops).callees a ↔ Op.edge a n ∈ ops := by
    intro a
    unfold build
    rw [mem_callees_foldl ops _ WF.empty]
    simp [callees, CallGraph.empty, omFind]
  refine ⟨h1, ?_, ?_⟩
  · rw [h1]
    exact exists_congr h2
  · intro hn
    have hnone : omFind (build ops).in_edges n = none := by
      have := (hg.keys_in n).not.1 hn
      simpa using this
    unfold isCallee
    rw [hnone]

/-! ## Dominators: the map that is returned -/

theorem domInit_foldl (N : Finset T) (start : T) (l : List T) :
    ∀ d : T → Option (Finset T),
      (∀ x, d x = none ∨ d x = some (if x = start then {start} else N)) →
      ∀ x, (l.foldl (fun dom n =>
          if n = start then domSet dom n (insert start (domGet dom n))
          else domSet dom n (domGet dom n ∪ N)) d) x =
        if x ∈ l then some (if x = start then {start} else N) else d x := by
  induction l with
  | nil => intro d _ x; simp
  | cons n l ih =>
    intro d hd x
    rw [List.foldl_cons]
    have hstep : ∀ y, (if n = start then domSet d n (insert start (domGet d n))
        else domSet d n (domGet d n ∪ N)) y =
        if y = n then some (if y = start then {start} else N) else d y := by
      intro y
      by_cases hns : n = start
      · simp only [hns, if_true, domSet]
        by_cases hy : y = start
        · simp only [hy, if_true]
          rcases hd start with h | h
          · simp [domGet, h]
          · simp [domGet, h]
        · simp [hy]
      · simp only [hns, if_false, domSet]
        by_cases hy : y = n
        · subst hy
          simp only [if_true, hns, if_false]
          rcases hd y with h | h
          · simp [domGet, h]
          · simp [domGet, h, hns]
        · simp [hy]
    rw [ih]
    · rw [hstep]
      by_cases hxn : x = n
      · simp [hxn]
      · simp [hxn]
    · intro y
      rw [hstep]
      by_cases hyn : y = n
      · right; simp [hyn]
      · simp only [hyn, if_false]; exact hd y

theorem domInit_apply (g : CallGraph T) (start x : T) :
    g.domInit start (fun _ => none) x =
      if x ∈ g.nodes then some (if x = start then {start} else g.nodes.toFinset) else none := by
  unfold domInit
  exact domInit_foldl g.nodes.toFinset start g.nodes (fun _ => none) (fun _ => Or.inl rfl) x

/-- Claim C19. `dominators` returns the initialisation unchanged: for a start node `s`
of the graph, whatever the edges and the bound on the iterations, the returned map
has exactly the nodes of the graph as keys, `dom[s] = {s}`, and `dom[n]` is the full
node set for every other node `n`. -/
theorem dominators_returns_init (g : CallGraph T) (s : T) (hs : s ∈ g.nodes) :
    ∃ dom, (∀ fuel, g.dominators fuel s (fun _ => none) = some dom) ∧
      (∀ n, (dom n).isSome = true ↔ n ∈ g.nodes) ∧ dom s = some {s} ∧
      ∀ n ∈ g.nodes, n ≠ s → dom n = some g.nodes.toFinset := by
  refine ⟨_, fun fuel => dominators_eq_init g fuel s _, ?_, ?_, ?_⟩
  · intro n
    rw [domInit_apply]
    by_cases hn : n ∈ g.nodes <;> simp [hn]
  · rw [domInit_apply]
    simp [hs]
  · intro n hn hne
    rw [domInit_apply]
    simp [hn, hne]

theorem dominators_returns_init_witness :
    (1 : Nat) ∈ diamond.nodes ∧
    ∃ dom, (∀ fuel, diamond.dominators fuel 1 (fun _ => none) = some dom) ∧
      (∀ n, (dom n).isSome = true ↔ n ∈ diamond.nodes) ∧ dom 1 = some {1} ∧
      ∀ n ∈ diamond.nodes, n ≠ 1 → dom n = some diamond.nodes.toFinset :=
  ⟨by decide, dominators_returns_init diamond 1 (by decide)⟩

/-! ## Dominators and edge addition -/

theorem nodes_addEdge_of_mem {g : CallGraph T} {a b : T} (ha : a ∈ g.nodes)
    (hb : b ∈ g.nodes) : (g.addEdge a b).nodes = g.nodes := by
  show ((g.add a).add b).nodes = g.nodes
  have h1 : g.add a = g := by unfold add; rw [if_pos ha]
  rw [h1]
  unfold add
  rw [if_pos hb]

/-- Claim C18, as stated, fails: on the graph with the isolated nodes A and B and
start A, the call `add(A, C)` brings the new node C into `dom[B]`, which grows from
`{A, B}` to `{A, B, C}`. -/
theorem dominators_grow_with_new_node :
    (1 : Nat) ∈ isolatedAB.nodes ∧ (2 : Nat) ∈ isolatedAB.nodes ∧
    ∃ d0 d1, (∀ fuel, isolatedAB.dominators fuel 1 (fun _ => none) = some d0) ∧
      (∀ fuel, (isolatedAB.addEdge 1 3).dominators fuel 1 (fun _ => none) = some d1) ∧
      domGet d0 2 = {1, 2} ∧ domGet d1 2 = {1, 2, 3} ∧ ¬ (domGet d1 2 ⊆ domGet d0 2) := by
  refine ⟨by decide, by decide, _, _, fun fuel => dominators_eq_init _ fuel _ _,
    fun fuel => dominators_eq_init _ fuel _ _, by decide, by decide, by decide⟩

/-- Claim C18, amended. For a graph built by `add` calls, a start node `s` of it and
an edge `a → b`, the set `dom[n]` computed after `add(a, b)` is a subset of the set
computed before, provided `n` is the start node or both `a` and `b` are already nodes
of the graph. -/
theorem dominators_mono_known_nodes (ops : List (Op T)) (s a b n : T)
    (hs : s ∈ (build ops).nodes) (h : n = s ∨ (a ∈ (build ops).nodes ∧ b ∈ (build ops).nodes)) :
    ∃ d0 d1, (∀ fuel, (build ops).dominators fuel s (fun _ => none) = some d0) ∧
      (∀ fuel, ((build ops).addEdge a b).dominators fuel s (fun _ => none) = some d1) ∧
      domGet d1 n ⊆ domGet d0 n := by
  refine ⟨_, _, fun fuel => dominators_eq_init _ fuel _ _,
    fun fuel => dominators_eq_init _ fuel _ _, ?_⟩
  unfold domGet
  rw [domInit_apply, domInit_apply]
  rcases h with h | ⟨ha, hb⟩
  · subst h
    have hs1 : n ∈ ((build ops).addEdge a b).nodes := by
      show n ∈ (((build ops).add a).add b).nodes
      rw [mem_nodes_add, mem_nodes_add]
      exact Or.inr (Or.inr hs)
    simp [hs, hs1]
  · rw [nodes_addEdge_of_mem ha hb]

theorem dominators_mono_known_nodes_witness :
    (1 : Nat) ∈ (build [Op.edge 1 2, Op.edge 2 3]).nodes ∧
    ((3 : Nat) = 1 ∨ ((3 : Nat) ∈ (build [Op.edge 1 2, Op.edge 2 3]).nodes ∧
      (1 : Nat) ∈ (build [Op.edge 1 2, Op.edge 2 3]).nodes)) ∧
    ∃ d0 d1, (∀ fuel, (build [Op.edge 1 2, Op.edge 2 3]).dominators fuel 1 (fun _ => none) =
        some d0) ∧
      (∀ fuel, ((build [Op.edge 1 2, Op.edge 2 3]).addEdge 3 1).dominators fuel 1
        (fun _ => none) = some d1) ∧
      domGet d1 3 ⊆ domGet d0 3 :=
  ⟨by decide, by decide,
    dominators_mono_known_nodes [Op.edge 1 2, Op.edge 2 3] 1 3 1 3 (by decide) (by decide)⟩


/-! ## The order in which `sort(out)` takes the nodes -/

theorem omKeys_omAssign_of_none (m : List (T × List T)) (k : T) (v : List T)
    (h : omFind m k = none) : omKeys (omAssign m k v) = omKeys m ++ [k] := by
  induction m with
  | nil => simp [omAssign, omKeys]
  | cons kv rest ih =>
    obtain ⟨k1, w⟩ := kv
    by_cases h1 : k1 = k
    · simp [omFind, h1] at h
    · simp only [omFind, h1, if_false] at h
      have := ih h
      simp only [omKeys] at this
      simp [omAssign, omKeys, h1, this]

theorem omKeys_omPushBack (m : List (T × List T)) (k x : T) :
    omKeys (omPushBack m k x) = omKeys m := by
  induction m with
  | nil => simp [omPushBack, omKeys]
  | cons kv rest ih =>
    obtain ⟨k1, w⟩ := kv
    simp only [omKeys] at ih
    by_cases h1 : k1 = k <;> simp [omPushBack, omKeys, h1, ih]

theorem NodesInv.after_add {g : CallGraph T} (hg : WF g) (hi : NodesInv g) (n : T) :
    NodesInv (g.add n) := by
  unfold CallGraph.add
  by_cases hn : n ∈ g.nodes
  · simpa [hn] using hi
  · have hnone : omFind g.out_edges n = none := by
      have := (hg.keys_out n).not.1 hn
      simpa using this
    simp only [hn, if_false]
    refine ⟨hi.1.orderedInsert n _, ?_⟩
    show (g.nodes.orderedInsert (· ≤ ·) n).Perm (omKeys (omAssign g.out_edges n []))
    rw [omKeys_omAssign_of_none _ _ _ hnone]
    exact (List.perm_orderedInsert _ n g.nodes).trans
      ((List.Perm.cons n hi.2).trans (List.perm_append_singleton n _).symm)

theorem NodesInv.after_addEdge {g : CallGraph T} (hg : WF g) (hi : NodesInv g) (a b : T) :
    NodesInv (g.addEdge a b) := by
  have h2 := (hi.after_add hg a).after_add (hg.add a) b
  refine ⟨h2.1, ?_⟩
  show ((g.add a).add b).nodes.Perm (omKeys (omPushBack ((g.add a).add b).out_edges a b))
  rw [omKeys_omPushBack]
  exact h2.2

theorem wf_nodesInv_foldl (ops : List (Op T)) : ∀ g : CallGraph T, WF g → NodesInv g →
    NodesInv (ops.foldl Op.apply g) := by
  induction ops with
  | nil => exact fun g _ hi => hi
  | cons op ops ih =>
    intro g hg hi
    cases op with
    | node n => exact ih _ (hg.add n) (hi.after_add hg n)
    | edge a b => exact ih _ (hg.addEdge a b) (hi.after_addEdge hg a b)

theorem build_nodesInv (ops : List (Op T)) : NodesInv (build ops) :=
  wf_nodesInv_foldl ops _ WF.empty
    ⟨by simp [CallGraph.empty], by simp [CallGraph.empty, omKeys]⟩

theorem nodes_eq_sorted_keys (ops : List (Op T)) :
    (build ops).nodes = (omKeys (build ops).out_edges).insertionSort (· ≤ ·) := by
  obtain ⟨hs, hp⟩ := build_nodesInv ops
  exact List.eq_of_perm_of_sorted (hp.trans (List.perm_insertionSort _ _).symm) hs
    (List.sorted_insertionSort _ _)

/-- Claim C17, as stated, fails: after `add(B)`, `add(A)` the insertion order of the
nodes is `[B, A]`, the start-list sort over it gives `[B, A]`, and `sort(out)` gives
`[A, B]`. -/
theorem sortAll_not_insertion_order :
    omKeys isolatedBA.out_edges = [2, 1] ∧
    (∀ fuel, 1 ≤ fuel → isolatedBA.sortAll fuel [] = some [1, 2]) ∧
    (∀ fuel, 1 ≤ fuel → isolatedBA.sort fuel (omKeys isolatedBA.out_edges) [] = some [2, 1]) ∧
    ¬ (∀ fuel, isolatedBA.sortAll fuel [] =
        isolatedBA.sort fuel (omKeys isolatedBA.out_edges) []) := by
  obtain ⟨d1, h1⟩ : ∃ d, forEachM (isolatedBA.sortEl 1) isolatedBA.nodes ([], ∅) =
      some ([1, 2], d) := ⟨_, rfl⟩
  obtain ⟨d2, h2⟩ : ∃ d, forEachM (isolatedBA.sortEl 1) (omKeys isolatedBA.out_edges)
      ([], ∅) = some ([2, 1], d) := ⟨_, rfl⟩
  have r1 : ∀ fuel, 1 ≤ fuel → isolatedBA.sortAll fuel [] = some [1, 2] := by
    intro fuel hf
    unfold sortAll
    rw [forEachM_mono (fun x s r hx => sortEl_mono_le isolatedBA hf x s r hx) _ _ _ h1]
    rfl
  have r2 : ∀ fuel, 1 ≤ fuel →
      isolatedBA.sort fuel (omKeys isolatedBA.out_edges) [] = some [2, 1] := by
    intro fuel hf
    unfold sort
    rw [forEachM_mono (fun x s r hx => sortEl_mono_le isolatedBA hf x s r hx) _ _ _ h2]
    rfl
  refine ⟨by decide, r1, r2, ?_⟩
  intro h
  have := h 1
  rw [r1 1 le_rfl, r2 1 le_rfl] at this
  exact absurd this (by decide)

/-- Claim C17, amended. For every graph built by `add` calls, `sort(out)` produces the
same output as `sort(start_list, out)` where `start_list` lists all nodes of the graph
in ascending order of the node type: the keys of `out_edges` sorted, which is the
iteration order of the set `nodes`. -/
theorem sortAll_eq_sort_ascending (ops : List (Op T)) (fuel : Nat) (out : List T) :
    (build ops).sortAll fuel out =
      (build ops).sort fuel ((omKeys (build ops).out_edges).insertionSort (· ≤ ·)) out := by
  rw [← nodes_eq_sorted_keys]
  rfl


/-! ## The work list of `compute_loops` on the nested loops -/

theorem collectBody_nested_none : ∀ (fuel : Nat) (body : Finset Nat),
    nested.collectBody 3 fuel [2] body = none ∧ nested.collectBody 3 fuel [3, 1] body = none ∧
    nested.collectBody 3 fuel [1] body = none ∧ nested.collectBody 3 fuel [4] body = none := by
  have hin : nested.in_edges = [(1, [4]), (2, [1, 3]), (3, [2]), (4, [2])] := by decide
  intro fuel
  induction fuel with
  | zero => intro body; exact ⟨rfl, rfl, rfl, rfl⟩
  | succ n ih =>
    intro body
    refine ⟨?_, ?_, ?_, ?_⟩
    · rw [collectBody]
      simp only [hin, omFind]
      exact (ih _).2.1
    · rw [collectBody]
      simp only [if_true]
      exact (ih _).2.2.1
    · rw [collectBody]
      simp only [hin, omFind]
      exact (ih _).2.2.2
    · rw [collectBody]
      simp only [hin, omFind]
      exact (ih _).1

/-- Claim C11, evaluated on the nested loops A→B, B→C, C→B, B→D, D→A with start A:
`compute_loops` returns for no bound on the iterations of its work list. For the edge
`B → C` the work list runs through B, C, A, D and is back at B, for ever. -/
theorem compute_loops_nested_diverges :
    ∀ fuel, nested.compute_loops fuel 1 [] = none := by
  intro fuel
  have hnodes : nested.nodes = [1, 2, 3, 4] := by decide
  have hout : nested.out_edges = [(1, [2]), (2, [3, 4]), (3, [2]), (4, [1])] := by decide
  have hd1 : domGet (nested.domInit 1 (fun _ => none)) 1 = {1} := by decide
  have hd2 : domGet (nested.domInit 1 (fun _ => none)) 2 = {1, 2, 3, 4} := by decide
  have h1 : nested.loopNode fuel (nested.domInit 1 (fun _ => none)) 1 ⟨fun _ => none, []⟩ =
      some ⟨fun _ => none, []⟩ := by
    simp [loopNode, hout, omFind, forEachM, loopEdge, hd1]
  have h2 : nested.loopNode fuel (nested.domInit 1 (fun _ => none)) 2 ⟨fun _ => none, []⟩ =
      none := by
    simp [loopNode, hout, omFind, forEachM, loopEdge, hd2, findLoop, Loop.new,
      (collectBody_nested_none fuel _).1]
  simp [compute_loops, dominators_eq_init, hnodes, forEachM, h1, h2]

end CallGraph

end P4
